import Mathlib

/-!
Verification of the language-aware retrieval core of the rag-chatbot
repository: a shallow embedding of `src/rag/retriever.ts`, `src/rag/chunk.ts`
and the ingestion path/selection logic of `scripts/verify-ingest-logic.ts`
(duplicated in the fast-ingest script), together with theorems settling the
frozen claims about them.

Strings manipulated by the ingestion scripts are modelled as `List Char`
(a JS string is a sequence of code points); the retriever part works on
Lean `String` with character-level helpers defined below.
-/

namespace RagChatbot

/-! ## Generic string helpers (JS string primitives) -/

/-- `startsWithL s p`: `p` is a prefix of `s` (JS `String.prototype.startsWith`). -/
def startsWithL : List Char → List Char → Bool
  | _, [] => true
  | [], _ :: _ => false
  | c :: s, d :: p => c == d && startsWithL s p

/-- `containsL s p`: `p` occurs contiguously inside `s` (JS `String.prototype.includes`). -/
def containsL (s p : List Char) : Bool :=
  startsWithL s p ||
    match s with
    | [] => false
    | _ :: t => containsL t p

/-- `endsWithL s p`: `p` is a suffix of `s` (JS `String.prototype.endsWith`). -/
def endsWithL (s p : List Char) : Bool :=
  startsWithL s.reverse p.reverse

/-- JS `s.replace(pat, repl)` with a plain-string pattern: replaces only the
first occurrence of `pat`, and returns `s` unchanged when there is none. -/
def replaceFirst : List Char → List Char → List Char → List Char
  | s, pat, repl =>
    if startsWithL s pat then repl ++ s.drop pat.length
    else
      match s with
      | [] => []
      | c :: t => c :: replaceFirst t pat repl

/-- JS `String.prototype.includes` on Lean strings. -/
def strContains (s p : String) : Bool := containsL s.data p.data

/-- JS truthiness of a possibly-absent string: `undefined` and `""` are falsy. -/
def truthy : Option String → Bool
  | none => false
  | some s => !s.isEmpty

/-- JS `a || d` where `a` is a possibly-absent string: `d` when `a` is absent or empty. -/
def jsOr : Option String → String → String
  | none, d => d
  | some s, d => if s.isEmpty then d else s

/-! ## Retriever data model (`src/rag/retriever.ts`, `src/utils/schema.ts`) -/

/-- Metadata carried by a vector-store match (`MatchMeta`): the fields the
retriever reads. Every field can be absent, as in the upsert payload. -/
structure MatchMeta where
  text : Option String
  title : Option String
  url : Option String
  source : Option String
  language : Option String
deriving Repr, DecidableEq

/-- One vector-store match as consumed by the retriever: an id and optional
metadata. (Scores and values are never read by `getRelevantDocuments`.) -/
structure VecMatch where
  id : String
  metadata : Option MatchMeta
deriving Repr, DecidableEq

/-- A source record built in step 5 of `getRelevantDocuments`. -/
structure RSource where
  id : String
  url : String
  title : String
  source : String
  hasEnglishVersion : Bool
deriving Repr, DecidableEq

/-- The record returned by `getRelevantDocuments`. -/
structure RetrievalResult where
  contexts : String
  sources : List RSource
  resMatches : List VecMatch
  usedFallback : Bool
deriving Repr, DecidableEq

/-! ## `convertUrlForLanguage` and its URL model -/

/-- Model of the external WHATWG `URL` parser (a platform collaborator, not
repository code) for the absolute `http(s)` URLs the index stores:
`parseUrl s = some (origin, pathname, tail)` splits `s` into
`scheme://host`, the path portion and the query/fragment tail; `none` means
`new URL(s)` would throw. Normalisation (lowercasing, percent-encoding,
default-port removal) is not modelled. -/
def parseUrl (s : String) : Option (String × String × String) :=
  let d := s.data
  let schemeRest : Option (List Char × List Char) :=
    if startsWithL d "http://".data then some ("http://".data, d.drop 7)
    else if startsWithL d "https://".data then some ("https://".data, d.drop 8)
    else none
  match schemeRest with
  | none => none
  | some (sch, rest) =>
    let host := rest.takeWhile fun c => !(c == '/' || c == '?' || c == '#')
    if host.isEmpty then none
    else
      let after := rest.drop host.length
      let path := after.takeWhile fun c => !(c == '?' || c == '#')
      let tail := after.drop path.length
      some (⟨sch ++ host⟩, ⟨path⟩, ⟨tail⟩)

/-- Model of assigning `url.pathname`: an empty path serialises as `/` on
http(s) URLs. -/
def setPathname (p : String) : String := if p.isEmpty then "/" else p

/-- `convertUrlForLanguage` from `src/rag/retriever.ts` (lines 8–31): returns
the input unchanged when it is falsy or the placeholder `#`; otherwise parses
it, strips a leading `/zh` or `/en` from the pathname (the source regex
`^\/(zh|en)` does not require a following slash), prefixes `/en` when the
target language is `en`, and reserialises. A parse failure takes the `catch`
branch and returns the input unchanged. -/
def convertUrlForLanguage (originalUrl : String) (targetLanguage : String) : String :=
  if originalUrl.isEmpty || originalUrl == "#" then originalUrl
  else
    match parseUrl originalUrl with
    | none => originalUrl
    | some (origin, pathname0, tail) =>
      let pathname1 : String :=
        if startsWithL pathname0.data "/zh".data then ⟨pathname0.data.drop 3⟩
        else if startsWithL pathname0.data "/en".data then ⟨pathname0.data.drop 3⟩
        else pathname0
      let pathname2 := if targetLanguage == "en" then "/en" ++ pathname1 else pathname1
      origin ++ setPathname pathname2 ++ tail

/-! ## Title dictionary (`src/rag/title-dictionary.ts`, generated by
`scripts/generate-title-dictionary.ts` lines 97–103) -/

/-- `translateTitleToEnglish`: `titleDictionary[chineseTitle] || chineseTitle`.
The module-level dictionary object is modelled as an explicit association
list (its keys are unique object keys). -/
def translateTitleToEnglish (dict : List (String × String)) (chineseTitle : String) : String :=
  jsOr (dict.lookup chineseTitle) chineseTitle

/-! ## `getRelevantDocuments` pipeline stages -/

/-- Step 2 guard: `m.metadata && m.metadata.text`. -/
def validMatch (m : VecMatch) : Bool :=
  match m.metadata with
  | none => false
  | some md => truthy md.text

/-- `r.metadata?.url?.includes('/en/')` — the existence probe used by the
post-query English filter. -/
def matchUrlHasEn (v : VecMatch) : Bool :=
  match v.metadata with
  | none => false
  | some md =>
    match md.url with
    | none => false
    | some u => strContains u "/en/"

/-- The URL a match contributes to the post-query filter: `metadata.url || ''`. -/
def postUrl (v : VecMatch) : String :=
  match v.metadata with
  | none => ""
  | some md => jsOr md.url ""

/-- Step 3: the post-query language filter applied only on the fallback path
(retriever lines 102–133). The `englishResults` existence check inside the
callback reads the captured pre-filter list, exactly as the closure in the
source does. -/
def postFilter (currentLang : String) (ms : List VecMatch) : List VecMatch :=
  ms.filter fun v =>
    match v.metadata with
    | none => false
    | some md =>
      let url := jsOr md.url ""
      if currentLang == "en" then
        let englishResults := ms.filter matchUrlHasEn
        if englishResults.length > 0 then strContains url "/en/"
        else !strContains url "/en/"
      else if currentLang == "zh" then !strContains url "/en/"
      else true

/-- Step 4: `metadataResults.map(v => v.metadata.text).filter(t => t && t.length > 0).join('\n---\n')`. -/
def buildContexts (ms : List VecMatch) : String :=
  String.intercalate "\n---\n"
    (ms.filterMap fun v =>
      match v.metadata with
      | none => none
      | some md =>
        match md.text with
        | none => none
        | some t => if t.isEmpty then none else some t)

/-- Step 5 first filter: `v.metadata && (v.metadata.url || v.metadata.title)`. -/
def sourceCandidate (v : VecMatch) : Bool :=
  match v.metadata with
  | none => false
  | some md => truthy md.url || truthy md.title

/-- Step 5 map body (retriever lines 144–186): build one source record. The
metadata is present for every source candidate; an absent one contributes
empty fields. -/
def buildSource (dict : List (String × String)) (currentLang : String) (v : VecMatch) : RSource :=
  let md := v.metadata.getD ⟨none, none, none, none, none⟩
  let originalUrl := jsOr md.url "#"
  let originalTitle := jsOr md.title (jsOr md.source v.id)
  if currentLang == "en" && !strContains originalUrl "/en/" then
    let translatedTitle := translateTitleToEnglish dict originalTitle
    if translatedTitle != originalTitle then
      ⟨v.id, convertUrlForLanguage originalUrl currentLang, translatedTitle,
        jsOr md.source v.id, true⟩
    else
      ⟨v.id, originalUrl, originalTitle, jsOr md.source v.id, false⟩
  else
    ⟨v.id, originalUrl, originalTitle, jsOr md.source v.id, true⟩

/-- Step 5 second filter: drop sources without an English version on `en`
requests; keep everything otherwise. -/
def keepForLanguage (currentLang : String) (s : RSource) : Bool :=
  if currentLang == "en" then s.hasEnglishVersion else true

/-- Step 5: the pre-dedup source list. -/
def buildSources (dict : List (String × String)) (currentLang : String)
    (ms : List VecMatch) : List RSource :=
  ((ms.filter sourceCandidate).map (buildSource dict currentLang)).filter
    (keepForLanguage currentLang)

/-- The dedup loop (retriever lines 200–208) with its `seenUrls` set, carried
here as the list of URLs already pushed. -/
def dedupSources : List RSource → List String → List RSource
  | [], _ => []
  | s :: rest, seen =>
    if !seen.contains s.url && s.url != "#" then
      s :: dedupSources rest (s.url :: seen)
    else
      dedupSources rest seen

/-- `uniqueSources`: dedup starting from an empty seen-set. -/
def uniqueSources (srcs : List RSource) : List RSource := dedupSources srcs []

/-- Steps 2–5 of `getRelevantDocuments`: the pure processing of the query
matches given the language context and whether the fallback query was used.
The two early returns (zero matches; zero matches with metadata) are the
source's lines 82–93. -/
def processMatches (dict : List (String × String)) (currentLang : String)
    (queryMatches : List VecMatch) (usedFallback : Bool) : RetrievalResult :=
  if queryMatches.length == 0 then ⟨"", [], [], usedFallback⟩
  else if (queryMatches.filter validMatch).length == 0 then
    ⟨"", [], queryMatches, usedFallback⟩
  else
    let metadataResults :=
      if usedFallback then postFilter currentLang (queryMatches.filter validMatch)
      else queryMatches.filter validMatch
    ⟨buildContexts metadataResults,
      uniqueSources (buildSources dict currentLang metadataResults),
      queryMatches, usedFallback⟩

/-- The retained match list (post-validation, post-language-filter) that
steps 4–5 consume. -/
def retainedOf (currentLang : String) (queryMatches : List VecMatch) (usedFallback : Bool) :
    List VecMatch :=
  if usedFallback then postFilter currentLang (queryMatches.filter validMatch)
  else queryMatches.filter validMatch

/-! ## The query state machine of `getRelevantDocuments` -/

/-- A vector-store query request as issued by the retriever: the `topK`
count and the optional `language` metadata filter. -/
structure QueryReq where
  topK : Nat
  languageFilter : Option String
deriving Repr, DecidableEq

/-- Outcome of one vector-store query: `failure` covers both a thrown error
and the 500 ms timeout losing the `Promise.race`; `ok` is a resolved match
list. -/
inductive QueryOutcome where
  | failure
  | ok (ms : List VecMatch)
deriving Repr, DecidableEq

/-- The vector store as a pure oracle from requests to outcomes. -/
def VectorStore := QueryReq → QueryOutcome

/-- Does the filtered query force the fallback path (it throws, times out, or
returns zero matches)? -/
def needsFallback (store : VectorStore) (k : Nat) (currentLang : String) : Bool :=
  match store ⟨k, some currentLang⟩ with
  | .failure => true
  | .ok ms => ms.length == 0

/-- `getRelevantDocuments` from `src/rag/retriever.ts` (lines 34–226).
Effects are shallowly embedded: the store is a pure oracle and the pair's
second component is the trace of queries issued, in order. The filtered
query is tried first; a failure, timeout or empty match list takes the
single `catch` fallback (an unfiltered query with the same `topK`), whose
own failure is rethrown to the caller (`Except.error ()`). -/
def getRelevantDocuments (store : VectorStore) (dict : List (String × String))
    (k : Nat) (currentLang : String) :
    Except Unit RetrievalResult × List QueryReq :=
  match store ⟨k, some currentLang⟩ with
  | .ok ms =>
    if ms.length == 0 then
      match store ⟨k, none⟩ with
      | .failure => (.error (), [⟨k, some currentLang⟩, ⟨k, none⟩])
      | .ok ms2 =>
        (.ok (processMatches dict currentLang ms2 true), [⟨k, some currentLang⟩, ⟨k, none⟩])
    else
      (.ok (processMatches dict currentLang ms false), [⟨k, some currentLang⟩])
  | .failure =>
    match store ⟨k, none⟩ with
    | .failure => (.error (), [⟨k, some currentLang⟩, ⟨k, none⟩])
    | .ok ms2 =>
      (.ok (processMatches dict currentLang ms2 true), [⟨k, some currentLang⟩, ⟨k, none⟩])

/-! ## Chunker (`src/rag/chunk.ts`)

The chunker works on raw character sequences. The two regular expressions of
the source are modelled character-exactly:
`/^#{1,6}\s+/m` by the `hsText`/`hsHashes`/`hsWs` scanner, and the
zero-width lookbehind split `/(?<=[。！？!?；;]\s*)/` by `sentGo`. -/

/-- ECMAScript `\s` (WhiteSpace ∪ LineTerminator), the class used by the
chunker's regexes and by `String.prototype.trim`. -/
def isWsChar (c : Char) : Bool :=
  c == ' ' || c == '\t' || c == '\n' || c.val == 0x0B || c.val == 0x0C || c == '\r' ||
  c.val == 0xA0 || c.val == 0x1680 || (0x2000 ≤ c.val && c.val ≤ 0x200A) ||
  c.val == 0x2028 || c.val == 0x2029 || c.val == 0x202F || c.val == 0x205F ||
  c.val == 0x3000 || c.val == 0xFEFF

/-- ECMAScript LineTerminator: the positions after which the `m`-flag `^`
anchor matches. -/
def isNlChar (c : Char) : Bool :=
  c == '\n' || c == '\r' || c.val == 0x2028 || c.val == 0x2029

/-- The sentence-terminal characters of the chunker's lookbehind class
`[。！？!?；;]`. -/
def isTermChar (c : Char) : Bool :=
  c == '。' || c == '！' || c == '？' || c == '!' || c == '?' || c == '；' || c == ';'

/-- JS `String.prototype.trim`: strip `\s` characters from both ends. -/
def trimChars (s : List Char) : List Char :=
  ((s.dropWhile isWsChar).reverse.dropWhile isWsChar).reverse

mutual

/-- Heading-split scanner, ordinary-text state. `atLS`: the current position
is a line start (where `^` can match); `cur`: the current piece, reversed. -/
def hsText : List Char → Bool → List Char → List (List Char)
  | [], _, cur => [cur.reverse]
  | c :: rest, atLS, cur =>
    if atLS && c == '#' then hsHashes rest 1 cur
    else hsText rest (isNlChar c) (c :: cur)

/-- Heading-split scanner, hash-run state: `n ≥ 1` hash marks have been read
at a line start. `#{1,6}` matches only if the run stops within six hashes at
a `\s` character; otherwise the hashes are ordinary text. -/
def hsHashes : List Char → Nat → List Char → List (List Char)
  | [], n, cur => [cur.reverse ++ List.replicate n '#']
  | c :: rest, n, cur =>
    if c == '#' then hsHashes rest (n + 1) cur
    else if n ≤ 6 && isWsChar c then cur.reverse :: hsWs rest (isNlChar c)
    else hsText rest (isNlChar c) (c :: (List.replicate n '#' ++ cur))

/-- Heading-split scanner, separator state: consuming the greedy `\s+` run of
a matched heading. `lastNl`: the last consumed character was a line
terminator, so the next position is again a line start. -/
def hsWs : List Char → Bool → List (List Char)
  | [], _ => [[]]
  | c :: rest, lastNl =>
    if isWsChar c then hsWs rest (isNlChar c)
    else if lastNl && c == '#' then hsHashes rest 1 []
    else hsText rest (isNlChar c) [c]

end

/-- `input.split(/^#{1,6}\s+/m)`: the list of pieces between heading
matches; matched separators (the hash run and its trailing whitespace) are
removed. -/
def headingSplit (s : List Char) : List (List Char) := hsText s true []

/-- Does the lookbehind `(?<=[。！？!?；;]\s*)` match at the position whose
(reversed) preceding characters are `revPre`: scanning backwards over
whitespace, the first other character is a sentence terminator. -/
def isSplitHere : List Char → Bool
  | [] => false
  | c :: rest =>
    if isTermChar c then true
    else if isWsChar c then isSplitHere rest
    else false

/-- `sec.split(/(?<=[。！？!?；;]\s*)/)` walker: `revPre` is the reversed
prefix of the whole string before the current position (the lookbehind may
look past earlier split points), `cur` the current piece, reversed. Per the
ECMAScript split algorithm a zero-width match never produces an empty piece,
so a cut happens only when `cur` is non-empty. -/
def sentGo : List Char → List Char → List Char → List (List Char)
  | [], _, cur => [cur.reverse]
  | c :: rest, revPre, cur =>
    if !cur.isEmpty && isSplitHere revPre then
      cur.reverse :: sentGo rest (c :: revPre) [c]
    else
      sentGo rest (c :: revPre) (c :: cur)

/-- The sentence-boundary split used inside an oversized section. -/
def sentSplit (s : List Char) : List (List Char) := sentGo s [] []

/-- `pushChunk` from `chunkText`: `if (s.trim()) chunks.push(s.trim())`. -/
def pushChunk (s : List Char) (chunks : List (List Char)) : List (List Char) :=
  if (trimChars s).isEmpty then chunks else chunks ++ [trimChars s]

/-- The buffer loop of `chunkText` over the sentence parts of one oversized
section: flush the buffer whenever appending the next part would exceed
`maxLen`. Returns the emitted chunks and the final buffer. -/
def chunkLoop (maxLen : Nat) : List (List Char) → List (List Char) → List Char →
    List (List Char) × List Char
  | [], chunks, buf => (chunks, buf)
  | part :: rest, chunks, buf =>
    if (buf ++ part).length > maxLen then chunkLoop maxLen rest (pushChunk buf chunks) part
    else chunkLoop maxLen rest chunks (buf ++ part)

/-- Chunking of a single section: emitted whole when within `maxLen`,
otherwise accumulated along sentence boundaries with a final flush. -/
def chunkSection (maxLen : Nat) (sec : List Char) : List (List Char) :=
  if sec.length ≤ maxLen then pushChunk sec []
  else
    let st := chunkLoop maxLen (sentSplit sec) [] []
    pushChunk st.2 st.1

/-- The section list `chunkText` iterates over: the trimmed non-empty
heading-split pieces, or `[input]` when that list is empty
(`sections.length ? sections : [input]`). -/
def usedSections (input : List Char) : List (List Char) :=
  let sections := ((headingSplit input).map trimChars).filter (fun s => !s.isEmpty)
  if sections.isEmpty then [input] else sections

/-- `chunkText` from `src/rag/chunk.ts` (lines 6–28); the source default for
`maxLen` is 800. -/
def chunkText (input : List Char) (maxLen : Nat) : List (List Char) :=
  (usedSections input).foldl (fun chunks sec => chunks ++ chunkSection maxLen sec) []

/-- Non-whitespace content of a character sequence. -/
def nonWs (s : List Char) : List Char := s.filter fun c => !isWsChar c

/-! ## Path resolution (`scripts/verify-ingest-logic.ts` lines 28–58, the
same function as in the fast-ingest script) -/

/-- Language tag of a resolved document. -/
inductive PageLang where
  | en
  | zh
deriving Repr, DecidableEq

/-- `rel.replace(/\.md$/i, '')`: strip one trailing `.md` case-insensitively. -/
def dropMdExt (rel : List Char) : List Char :=
  match rel.reverse with
  | d :: m :: dot :: rest =>
    if (d == 'd' || d == 'D') && (m == 'm' || m == 'M') && dot == '.' then rest.reverse
    else rel
  | _ => rel

/-- `replace(/^\//, '')`: drop a single leading slash. -/
def dropLeadSlash : List Char → List Char
  | '/' :: t => t
  | s => s

/-- Helper for `replace(/\/+/g, '/')`: collapse every run of slashes to one.
`prevSlash` records whether the previously emitted character was a slash. -/
def squeezeGo : List Char → Bool → List Char
  | [], _ => []
  | c :: t, prevSlash =>
    if c == '/' then
      if prevSlash then squeezeGo t true else '/' :: squeezeGo t true
    else c :: squeezeGo t false

/-- `replace(/\/+/g, '/')`. -/
def squeezeSlashes (s : List Char) : List Char := squeezeGo s false

/-- `replace(/\/$/, '')`: drop a single trailing slash. -/
def dropTrailSlash (s : List Char) : List Char :=
  match s.reverse with
  | '/' :: t => t.reverse
  | _ => s

/-- Model of the external `new URL(urlPath, BASE_URL).toString()`
collaborator for the configuration the scripts use: an origin-only base URL
and an absolute `urlPath` made only of characters the serialiser keeps
verbatim; resolution is then concatenation. -/
def urlResolve (base urlPath : List Char) : List Char := base ++ urlPath

/-- `toUrlFromPath` from `scripts/verify-ingest-logic.ts` (lines 28–58),
applied to the already-relative, forward-slash path (`path.relative` and the
backslash rewrite are the identity on the root-relative POSIX paths the
repository documents). Every `replace` with a string pattern substitutes the
first occurrence, as in JS. -/
def toUrlFromPath (base rel : List Char) : List Char × PageLang :=
  let noExt := dropMdExt rel
  let cleanPath :=
    if endsWithL noExt "/_index".data then
      dropLeadSlash (replaceFirst noExt "/_index".data "/".data)
    else if endsWithL noExt "/index".data then
      dropLeadSlash (replaceFirst noExt "/index".data "/".data)
    else
      dropLeadSlash noExt ++ "/".data
  let language := if startsWithL cleanPath "en/".data then PageLang.en else PageLang.zh
  let finalPath :=
    if startsWithL cleanPath "zh/blog/".data then
      replaceFirst cleanPath "zh/blog/".data "blog/".data
    else if startsWithL cleanPath "en/blog/".data then cleanPath
    else if startsWithL cleanPath "zh/".data then replaceFirst cleanPath "zh/".data []
    else cleanPath
  let urlPath0 := dropTrailSlash (squeezeSlashes ('/' :: finalPath))
  let urlPath := if urlPath0.isEmpty then "/".data else urlPath0
  (urlResolve base urlPath, language)

/-! ## Corpus selection (`scripts/verify-ingest-logic.ts` lines 98–117,
duplicated in the fast-ingest script) -/

/-- JS `Map.prototype.set` on an insertion-ordered association list: update
in place when the key exists, append otherwise. -/
def assocSet (m : List (List Char × List Char)) (k v : List Char) :
    List (List Char × List Char) :=
  match m with
  | [] => [(k, v)]
  | (k1, v1) :: rest => if k1 == k then (k, v) :: rest else (k1, v1) :: assocSet rest k v

/-- JS `Map.prototype.has`. -/
def assocHas (m : List (List Char × List Char)) (k : List Char) : Bool :=
  match m with
  | [] => false
  | (k1, _) :: rest => k1 == k || assocHas rest k

/-- JS `Map.prototype.get`. -/
def assocGet (m : List (List Char × List Char)) (k : List Char) : Option (List Char) :=
  match m with
  | [] => none
  | (k1, v1) :: rest => if k1 == k then some v1 else assocGet rest k

/-- `relativePath.includes('/about/') || … ('/contact/') || … ('/community/')`. -/
def isStaticPage (rel : List Char) : Bool :=
  containsL rel "/about/".data || containsL rel "/contact/".data ||
    containsL rel "/community/".data

/-- `relativePath.includes('/blog/')`. -/
def isBlogPage (rel : List Char) : Bool := containsL rel "/blog/".data

/-- `replace(/^(zh|en)\/blog\//, '')`: the regex is anchored, so only a
leading `zh/blog/` or `en/blog/` is removed. -/
def stripLangBlog (rel : List Char) : List Char :=
  if startsWithL rel "zh/blog/".data then rel.drop 8
  else if startsWithL rel "en/blog/".data then rel.drop 8
  else rel

/-- The blog-post key: `replace(/^(zh|en)\/blog\//, '').replace('/index.md', '')`. -/
def postPathOf (rel : List Char) : List Char :=
  replaceFirst (stripLangBlog rel) "/index.md".data []

/-- One iteration of the selection loop over a candidate file path: static
single-instance pages keep only `zh/` candidates; blog posts go into the map
keyed by post path, Chinese always set, English only when the key is absent. -/
def selectStep (st : List (List Char × List Char) × List (List Char)) (file : List Char) :
    List (List Char × List Char) × List (List Char) :=
  if isStaticPage file then
    if startsWithL file "zh/".data then (st.1, st.2 ++ [file]) else st
  else if isBlogPage file then
    let postPath := postPathOf file
    if startsWithL file "zh/".data then (assocSet st.1 postPath file, st.2)
    else if startsWithL file "en/".data && !assocHas st.1 postPath then
      (assocSet st.1 postPath file, st.2)
    else st
  else st

/-- The whole selection (`main`, lines 95–117): fold the loop over the
candidate list and return `[...blogFiles.values(), ...staticFiles]`. -/
def selectCorpus (files : List (List Char)) : List (List Char) :=
  let st := files.foldl selectStep ([], [])
  st.1.map (fun kv => kv.2) ++ st.2

/-- A candidate path as produced by the globby patterns of the script:
`zh/blog/**/index.md`, `en/blog/**/index.md`, `*/about/_index.md`,
`*/contact/_index.md`, `*/community/_index.md`. -/
inductive Cand where
  | blog (lang : PageLang) (slug : List Char)
  | staticPage (lang : List Char) (sect : List Char)
deriving Repr, DecidableEq

/-- The relative path of a candidate. -/
def renderCand : Cand → List Char
  | .blog .zh slug => "zh/blog/".data ++ slug ++ "/index.md".data
  | .blog .en slug => "en/blog/".data ++ slug ++ "/index.md".data
  | .staticPage lang sect => lang ++ "/".data ++ sect ++ "/_index.md".data

/-- Well-formedness of a candidate under the documented content layout: blog
slugs are single non-empty path segments whose rendered path does not hit a
static-page marker; static sections are the three literal section names and
the language wildcard is a single segment. -/
def wfCand : Cand → Prop
  | .blog _ slug =>
      slug ≠ [] ∧ '/' ∉ slug ∧
        isStaticPage (renderCand (.blog .zh slug)) = false ∧
        isStaticPage (renderCand (.blog .en slug)) = false
  | .staticPage lang sect =>
      '/' ∉ lang ∧
        (sect = "about".data ∨ sect = "contact".data ∨ sect = "community".data)

instance wfCandDecidable : DecidablePred wfCand := fun c => by
  cases c with
  | blog lg slug =>
    unfold wfCand
    infer_instance
  | staticPage lang sect =>
    unfold wfCand
    infer_instance

/-- The static files the claim says must survive: exactly the `zh` static
candidates, in order. -/
def zhStaticOf (cands : List Cand) : List (List Char) :=
  cands.filterMap fun c =>
    match c with
    | .staticPage lang _ => if lang = "zh".data then some (renderCand c) else none
    | .blog _ _ => none

/-! ## Concrete instances used by witnesses and counterexamples -/

/-- A concrete candidate set exercising the selection loop: a duplicated blog
key where the English file comes first, an English-only blog key, and the
about page in both languages. -/
def candsW : List Cand :=
  [Cand.blog .en "post-a".data, Cand.blog .zh "post-a".data,
   Cand.blog .en "post-b".data,
   Cand.staticPage "zh".data "about".data,
   Cand.staticPage "en".data "about".data]

/-- Counterexample dictionary for the translation-gate claim: the dictionary
contains an entry for the title, mapping it to itself. -/
def dictCe : List (String × String) := [("T", "T")]

/-- A retained Chinese match whose title is the key of `dictCe`. -/
def matchCe : VecMatch :=
  ⟨"m1", some ⟨some "body", some "T", some "https://s.com/blog/t", none, some "zh"⟩⟩

/-- Witness dictionary with a genuine translation. -/
def dictW : List (String × String) := [("标题", "Title en")]

/-- Witness match: Chinese URL, title translatable through `dictW`. -/
def matchW : VecMatch :=
  ⟨"w1", some ⟨some "text w", some "标题", some "https://s.com/blog/w", none, some "zh"⟩⟩

/-- A match with no text metadata (discarded by validation). -/
def matchNoText : VecMatch :=
  ⟨"n1", some ⟨none, some "T2", some "https://s.com/blog/n", none, some "zh"⟩⟩

/-- An English-marked match used by post-filter witnesses. -/
def matchEnW : VecMatch :=
  ⟨"e1", some ⟨some "text e", some "Title e", some "https://s.com/en/blog/e", none, some "en"⟩⟩

/-- A constant vector store used by witnesses: the filtered query returns
zero matches, the unfiltered one returns `[matchW]`. -/
def storeW : VectorStore := fun req =>
  match req.languageFilter with
  | some _ => .ok []
  | none => .ok [matchW]

/-! ## Helper lemmas -/

theorem dedupSources_sublist (l : List RSource) (seen : List String) :
    (dedupSources l seen).Sublist l := by
  induction l generalizing seen with
  | nil => simp [dedupSources]
  | cons s rest ih =>
    by_cases hmem : s.url ∈ seen
    · simpa [dedupSources, hmem] using (ih seen).cons s
    · by_cases hhash : s.url = "#"
      · simpa [dedupSources, hmem, hhash] using (ih seen).cons s
      · simpa [dedupSources, hmem, hhash] using (ih (s.url :: seen)).cons₂ s

theorem dedupSources_filter (l : List RSource) (seen : List String) (u : String) :
    (dedupSources l seen).filter (fun s => s.url == u) =
      if u = "#" ∨ u ∈ seen then []
      else (l.filter (fun s => s.url == u)).take 1 := by
  induction l generalizing seen with
  | nil => simp [dedupSources]
  | cons s rest ih =>
    by_cases hmem : s.url ∈ seen
    · rw [show dedupSources (s :: rest) seen = dedupSources rest seen by
        simp [dedupSources, hmem]]
      rw [ih seen]
      by_cases hc : u = "#" ∨ u ∈ seen
      · rw [if_pos hc, if_pos hc]
      · have hne : (s.url == u) = false := by
          simp only [beq_eq_false_iff_ne, ne_eq]
          rintro rfl
          exact hc (Or.inr hmem)
        rw [if_neg hc, if_neg hc]
        simp [List.filter_cons, hne]
    · by_cases hhash : s.url = "#"
      · rw [show dedupSources (s :: rest) seen = dedupSources rest seen by
          simp [dedupSources, hhash]]
        rw [ih seen]
        by_cases hc : u = "#" ∨ u ∈ seen
        · rw [if_pos hc, if_pos hc]
        · have hne : (s.url == u) = false := by
            simp only [beq_eq_false_iff_ne, ne_eq]
            rintro rfl
            exact hc (Or.inl hhash)
          rw [if_neg hc, if_neg hc]
          simp [List.filter_cons, hne]
      · rw [show dedupSources (s :: rest) seen = s :: dedupSources rest (s.url :: seen) by
          simp [dedupSources, hmem, hhash]]
        by_cases hu : s.url = u
        · subst hu
          rw [show (s :: dedupSources rest (s.url :: seen)).filter (fun t => t.url == s.url) =
              s :: (dedupSources rest (s.url :: seen)).filter (fun t => t.url == s.url) by
            simp [List.filter_cons]]
          rw [ih (s.url :: seen)]
          rw [if_pos (Or.inr (List.mem_cons_self _ _))]
          rw [if_neg (by
            rintro (h | h)
            · exact hhash h
            · exact hmem h)]
          rw [show (s :: rest).filter (fun t => t.url == s.url) =
              s :: rest.filter (fun t => t.url == s.url) by
            simp [List.filter_cons]]
          simp
        · have hne : (s.url == u) = false := by
            simp only [beq_eq_false_iff_ne, ne_eq]
            exact hu
          rw [show (s :: dedupSources rest (s.url :: seen)).filter (fun t => t.url == u) =
              (dedupSources rest (s.url :: seen)).filter (fun t => t.url == u) by
            simp [List.filter_cons, hne]]
          rw [ih (s.url :: seen)]
          by_cases hc : u = "#" ∨ u ∈ seen
          · rw [if_pos (by
              rcases hc with h | h
              · exact Or.inl h
              · exact Or.inr (List.mem_cons_of_mem _ h)), if_pos hc]
          · rw [if_neg (by
              rintro (h | h)
              · exact hc (Or.inl h)
              · rcases List.mem_cons.1 h with h1 | h1
                · exact hu h1.symm
                · exact hc (Or.inr h1)), if_neg hc]
            simp [List.filter_cons, hne]

theorem processMatches_contexts (dict : List (String × String)) (lang : String)
    (qm : List VecMatch) (f : Bool) :
    (processMatches dict lang qm f).contexts = buildContexts (retainedOf lang qm f) := by
  unfold processMatches
  split
  next h =>
    have hq : qm = [] := by simpa using h
    subst hq
    cases f <;> rfl
  next h =>
    split
    next h1 =>
      have hv : qm.filter validMatch = [] := by simpa using h1
      unfold retainedOf
      rw [hv]
      cases f <;> rfl
    next h1 =>
      cases f <;> rfl

theorem processMatches_sources (dict : List (String × String)) (lang : String)
    (qm : List VecMatch) (f : Bool) :
    (processMatches dict lang qm f).sources =
      uniqueSources (buildSources dict lang (retainedOf lang qm f)) := by
  unfold processMatches
  split
  next h =>
    have hq : qm = [] := by simpa using h
    subst hq
    cases f <;> rfl
  next h =>
    split
    next h1 =>
      have hv : qm.filter validMatch = [] := by simpa using h1
      unfold retainedOf
      rw [hv]
      cases f <;> rfl
    next h1 =>
      cases f <;> rfl

theorem processMatches_usedFallback (dict : List (String × String)) (lang : String)
    (qm : List VecMatch) (f : Bool) :
    (processMatches dict lang qm f).usedFallback = f := by
  unfold processMatches
  split
  · rfl
  · split
    · rfl
    · cases f <;> rfl

theorem matchUrlHasEn_eq_postUrl (v : VecMatch) :
    matchUrlHasEn v = strContains (postUrl v) "/en/" := by
  rcases v with ⟨i, md⟩
  rcases md with _ | md
  · rfl
  · rcases md with ⟨t, ti, u, so, la⟩
    rcases u with _ | u
    · rfl
    · by_cases hu : u.isEmpty = true
      · have hue : u = "" := (String.isEmpty_iff u).1 hu
        subst hue
        rfl
      · simp only [matchUrlHasEn, postUrl, jsOr, hu]
        rw [if_neg (by simp)]

/-! ## Claim theorems -/

/-- C1: on every retrieval request, if the language-filtered query fails,
times out or returns zero matches, exactly one further query is issued — the
unfiltered fallback with the same `topK` — and the overall call errors
exactly when that single fallback query itself fails; otherwise only the
filtered query is issued. -/
theorem c1_single_fallback (store : VectorStore) (dict : List (String × String))
    (k : Nat) (currentLang : String) :
    ((getRelevantDocuments store dict k currentLang).2 =
      if needsFallback store k currentLang then
        [⟨k, some currentLang⟩, ⟨k, none⟩]
      else [⟨k, some currentLang⟩]) ∧
    ((getRelevantDocuments store dict k currentLang).1 = .error () ↔
      (needsFallback store k currentLang = true ∧ store ⟨k, none⟩ = .failure)) := by
  rcases hf : store ⟨k, some currentLang⟩ with _ | ms
  · rcases hb : store ⟨k, none⟩ with _ | ms2 <;>
      simp [getRelevantDocuments, needsFallback, hf, hb]
  · by_cases hlen : ms = []
    · subst hlen
      rcases hb : store ⟨k, none⟩ with _ | ms2 <;>
        simp [getRelevantDocuments, needsFallback, hf, hb]
    · simp [getRelevantDocuments, needsFallback, hf, hlen]

/-- C10: the URL language-conversion step is total: the placeholder `#` and
the empty string are returned unchanged, and any string the URL parser
rejects is returned as-is instead of raising, so source resolution cannot
fail on malformed URL metadata. -/
theorem c10_convert_url_total (u targetLanguage : String) :
    (u = "#" → convertUrlForLanguage u targetLanguage = u) ∧
    (u = "" → convertUrlForLanguage u targetLanguage = u) ∧
    (parseUrl u = none → convertUrlForLanguage u targetLanguage = u) := by
  refine ⟨?_, ?_, ?_⟩
  · rintro rfl
    rfl
  · rintro rfl
    rfl
  · intro hp
    unfold convertUrlForLanguage
    by_cases he : (u.isEmpty || u == "#") = true
    · rw [if_pos he]
    · rw [if_neg he, hp]

/-- Witness for C10 at concrete inputs. -/
theorem c10_witness :
    parseUrl "not a url" = none ∧
    convertUrlForLanguage "not a url" "en" = "not a url" ∧
    convertUrlForLanguage "#" "zh" = "#" :=
  ⟨by decide, (c10_convert_url_total "not a url" "en").2.2 (by decide),
    (c10_convert_url_total "#" "zh").1 rfl⟩

/-- C4: deduplication removes every source whose URL is the placeholder `#`,
keeps exactly the first-seen source for each remaining canonical URL, and
preserves the relative order of the survivors (the output is a sublist of
the input). -/
theorem c4_dedup_first_seen (l : List RSource) (u : String) :
    (uniqueSources l).Sublist l ∧
    (uniqueSources l).filter (fun s => s.url == u) =
      (if u = "#" then [] else (l.filter (fun s => s.url == u)).take 1) := by
  constructor
  · exact dedupSources_sublist l []
  · have h := dedupSources_filter l [] u
    simpa using h

/-- C5: matches lacking text metadata are discarded before any further
processing (contexts and sources depend only on the validated matches), and
when nothing survives validation the result carries an empty context string
and an empty source list while still reporting whether the fallback path was
used (`getRelevantDocuments` always reports the fallback flag faithfully). -/
theorem c5_metadata_validation (dict : List (String × String)) (currentLang : String)
    (qm : List VecMatch) (f : Bool) (store : VectorStore) (k : Nat) (r : RetrievalResult) :
    ((processMatches dict currentLang qm f).contexts =
        (processMatches dict currentLang (qm.filter validMatch) f).contexts ∧
      (processMatches dict currentLang qm f).sources =
        (processMatches dict currentLang (qm.filter validMatch) f).sources) ∧
    (qm.filter validMatch = [] →
      (processMatches dict currentLang qm f).contexts = "" ∧
      (processMatches dict currentLang qm f).sources = [] ∧
      (processMatches dict currentLang qm f).usedFallback = f) ∧
    ((getRelevantDocuments store dict k currentLang).1 = Except.ok r →
      r.usedFallback = needsFallback store k currentLang) := by
  have hfilt : (qm.filter validMatch).filter validMatch = qm.filter validMatch := by
    rw [List.filter_filter]
    simp
  refine ⟨⟨?_, ?_⟩, ?_, ?_⟩
  · rw [processMatches_contexts, processMatches_contexts]
    unfold retainedOf
    rw [hfilt]
  · rw [processMatches_sources, processMatches_sources]
    unfold retainedOf
    rw [hfilt]
  · intro hv
    refine ⟨?_, ?_, processMatches_usedFallback dict currentLang qm f⟩
    · rw [processMatches_contexts]
      unfold retainedOf
      rw [hv]
      cases f <;> rfl
    · rw [processMatches_sources]
      unfold retainedOf
      rw [hv]
      cases f <;> rfl
  · intro hok
    unfold getRelevantDocuments at hok
    unfold needsFallback
    rcases hf : store ⟨k, some currentLang⟩ with _ | ms
    · rw [hf] at hok
      dsimp only at hok ⊢
      rcases hb : store ⟨k, none⟩ with _ | ms2
      · rw [hb] at hok
        simp at hok
      · rw [hb] at hok
        dsimp only at hok
        simp only [Except.ok.injEq] at hok
        rw [← hok]
        rw [processMatches_usedFallback]
    · rw [hf] at hok
      dsimp only at hok ⊢
      by_cases hlen : (ms.length == 0) = true
      · rw [if_pos hlen] at hok
        rcases hb : store ⟨k, none⟩ with _ | ms2
        · rw [hb] at hok
          simp at hok
        · rw [hb] at hok
          dsimp only at hok
          simp only [Except.ok.injEq] at hok
          rw [← hok, processMatches_usedFallback, hlen]
      · rw [if_neg hlen] at hok
        dsimp only at hok
        simp only [Except.ok.injEq] at hok
        rw [← hok, processMatches_usedFallback]
        have hfalse : (ms.length == 0) = false := by
          cases h : (ms.length == 0)
          · rfl
          · exact absurd h hlen
        rw [hfalse]

/-- Witness for C5: a batch whose only match lacks text metadata yields the
empty context and source list, and a run of the engine reports the fallback
flag. -/
theorem c5_witness :
    (processMatches [] "zh" [matchNoText] false).contexts = "" ∧
    (processMatches [] "zh" [matchNoText] false).sources = [] ∧
    (getRelevantDocuments storeW [] 8 "en").1 = Except.ok (processMatches [] "en" [matchW] true) ∧
    needsFallback storeW 8 "en" = true :=
  ⟨((c5_metadata_validation [] "zh" [matchNoText] false storeW 8
      (processMatches [] "en" [matchW] true)).2.1 (by decide)).1,
   ((c5_metadata_validation [] "zh" [matchNoText] false storeW 8
      (processMatches [] "en" [matchW] true)).2.1 (by decide)).2.1,
   by rfl,
   by
     have h := (c5_metadata_validation [] "en" [matchW] true storeW 8
        (processMatches [] "en" [matchW] true)).2.2 (by rfl)
     rw [← h]
     rfl⟩

/-- C2: the post-query language filter runs only on the fallback path; under
it, a `zh` request retains only matches whose URL does not contain the
English marker `/en/`, and an `en` request keeps exactly the
English-marked matches when at least one retained match carries the marker
and exactly the unmarked ones otherwise (the existence check is evaluated
against the whole pre-filter list). -/
theorem c2_post_language_filter (dict : List (String × String)) (lang : String)
    (qm ms : List VecMatch) :
    ((processMatches dict lang qm false).contexts = buildContexts (qm.filter validMatch) ∧
      (processMatches dict lang qm false).sources =
        uniqueSources (buildSources dict lang (qm.filter validMatch)) ∧
      (processMatches dict lang qm true).contexts =
        buildContexts (postFilter lang (qm.filter validMatch)) ∧
      (processMatches dict lang qm true).sources =
        uniqueSources (buildSources dict lang (postFilter lang (qm.filter validMatch)))) ∧
    (∀ v ∈ postFilter "zh" ms, strContains (postUrl v) "/en/" = false) ∧
    ((∀ v ∈ ms, v.metadata.isSome = true) →
      postFilter "en" ms =
        if ms.any matchUrlHasEn then ms.filter matchUrlHasEn
        else ms.filter fun v => !matchUrlHasEn v) := by
  refine ⟨⟨processMatches_contexts dict lang qm false,
      processMatches_sources dict lang qm false,
      processMatches_contexts dict lang qm true,
      processMatches_sources dict lang qm true⟩, ?_, ?_⟩
  · intro v hv
    have hp := List.of_mem_filter hv
    rcases hmd : v.metadata with _ | md
    · rw [hmd] at hp
      simp at hp
    · rw [hmd] at hp
      rw [show (("zh" : String) == "en") = false from by decide] at hp
      rw [show (("zh" : String) == "zh") = true from by decide] at hp
      simp only [Bool.false_eq_true, if_false, if_true] at hp
      have : strContains (jsOr md.url "") "/en/" = false := by
        cases h : strContains (jsOr md.url "") "/en/"
        · rfl
        · rw [h] at hp
          simp at hp
      simpa [postUrl, hmd] using this
  · intro hmeta
    have hpos : ∀ p : VecMatch → Bool,
        (0 < (ms.filter p).length) ↔ ms.any p = true := by
      intro p
      rw [List.length_pos_iff_exists_mem, List.any_eq_true]
      constructor
      · rintro ⟨a, ha⟩
        rcases List.mem_filter.1 ha with ⟨h1, h2⟩
        exact ⟨a, h1, h2⟩
      · rintro ⟨a, h1, h2⟩
        exact ⟨a, List.mem_filter.2 ⟨h1, h2⟩⟩
    by_cases hany : ms.any matchUrlHasEn = true
    · rw [if_pos hany]
      apply List.filter_congr
      intro v hv
      rcases hmd : v.metadata with _ | md
      · have := hmeta v hv
        rw [hmd] at this
        simp at this
      · simp only [hmd]
        rw [show (("en" : String) == "en") = true from by decide]
        simp only [if_true]
        rw [if_pos ((hpos matchUrlHasEn).2 hany)]
        have := matchUrlHasEn_eq_postUrl v
        rw [show postUrl v = jsOr md.url "" from by simp [postUrl, hmd]] at this
        exact this.symm
    · rw [if_neg hany]
      apply List.filter_congr
      intro v hv
      rcases hmd : v.metadata with _ | md
      · have := hmeta v hv
        rw [hmd] at this
        simp at this
      · simp only [hmd]
        rw [show (("en" : String) == "en") = true from by decide]
        simp only [if_true]
        rw [if_neg (by
          intro hgt
          exact hany ((hpos matchUrlHasEn).1 hgt))]
        have := matchUrlHasEn_eq_postUrl v
        rw [show postUrl v = jsOr md.url "" from by simp [postUrl, hmd]] at this
        rw [← this]

/-- Witness for C2: with one English-marked and one Chinese match, the `en`
post-filter keeps exactly the English-marked one, and a `zh`-retained match
has no English marker in its URL. -/
theorem c2_witness :
    postFilter "en" [matchW, matchEnW] = [matchEnW] ∧
    strContains (postUrl matchW) "/en/" = false := by
  constructor
  · have h := (c2_post_language_filter [] "en" [] [matchW, matchEnW]).2.2 (by decide)
    rw [h]
    decide
  · exact (c2_post_language_filter [] "zh" [] [matchW, matchEnW]).2.1 matchW (by decide)

/-! ### Dedup no-op conditions and source construction facts (for C3) -/

theorem isEmpty_false_of_ne (u : String) (h : u ≠ "") : u.isEmpty = false := by
  cases he : u.isEmpty
  · rfl
  · exact absurd ((String.isEmpty_iff u).1 he) h

theorem jsOr_some_of_ne (u d : String) (h : u ≠ "") : jsOr (some u) d = u := by
  unfold jsOr
  dsimp only
  rw [isEmpty_false_of_ne u h]
  rfl

theorem truthy_some_of_ne (u : String) (h : u ≠ "") : truthy (some u) = true := by
  unfold truthy
  dsimp only
  rw [isEmpty_false_of_ne u h]
  rfl

theorem buildSource_id (dict : List (String × String)) (lang : String) (v : VecMatch) :
    (buildSource dict lang v).id = v.id := by
  unfold buildSource
  dsimp only
  split
  · split <;> rfl
  · rfl

theorem dedupSources_eq_self (l : List RSource) (seen : List String)
    (hnd : (l.map RSource.url).Nodup) (hnh : ∀ s ∈ l, s.url ≠ "#")
    (hns : ∀ s ∈ l, s.url ∉ seen) : dedupSources l seen = l := by
  induction l generalizing seen with
  | nil => rfl
  | cons s rest ih =>
    rw [show dedupSources (s :: rest) seen = s :: dedupSources rest (s.url :: seen) by
      simp [dedupSources, hns s (by simp), hnh s (by simp)]]
    congr 1
    apply ih
    · exact (List.nodup_cons.1 (by simpa using hnd)).2
    · intro t ht
      exact hnh t (List.mem_cons_of_mem _ ht)
    · intro t ht hmem2
      rcases List.mem_cons.1 hmem2 with h | h
      · have hin : t.url ∈ rest.map RSource.url := List.mem_map_of_mem RSource.url ht
        rw [h] at hin
        exact (List.nodup_cons.1 (by simpa using hnd)).1 hin
      · exact hns t (List.mem_cons_of_mem _ ht) h

theorem uniqueSources_eq_self (l : List RSource)
    (hnd : (l.map RSource.url).Nodup) (hnh : ∀ s ∈ l, s.url ≠ "#") :
    uniqueSources l = l :=
  dedupSources_eq_self l [] hnd hnh (by simp)

/-- C3 (amended): for an `en` request, a retained match whose URL lacks the
English marker appears in the returned source list — with its URL rewritten
by `convertUrlForLanguage` and its title replaced by the translated title —
exactly when `translateTitleToEnglish` changes its title, i.e. when the
dictionary maps the title to a non-empty value different from the title
itself; and when every retained match lacks both the marker and such an
effective translation, the returned source list is empty (the context string
is built independently and may stay non-empty). Side conditions: the match
carries a non-empty URL, the built sources have pairwise-distinct non-`#`
URLs (so deduplication cannot interfere), and retained match ids are
distinct. -/
theorem c3_en_translation_gate (dict : List (String × String)) (qm : List VecMatch)
    (f : Bool) (v : VecMatch) (md : MatchMeta) (u : String)
    (hv : v ∈ retainedOf "en" qm f)
    (hmd : v.metadata = some md)
    (hurl : md.url = some u)
    (hune : u ≠ "")
    (hnoen : strContains u "/en/" = false)
    (hndurl : ((buildSources dict "en" (retainedOf "en" qm f)).map RSource.url).Nodup)
    (hnohash : ∀ s ∈ buildSources dict "en" (retainedOf "en" qm f), s.url ≠ "#")
    (hndid : ((retainedOf "en" qm f).map VecMatch.id).Nodup) :
    (translateTitleToEnglish dict (jsOr md.title (jsOr md.source v.id)) ≠
        jsOr md.title (jsOr md.source v.id) →
      RSource.mk v.id (convertUrlForLanguage u "en")
          (translateTitleToEnglish dict (jsOr md.title (jsOr md.source v.id)))
          (jsOr md.source v.id) true
        ∈ (processMatches dict "en" qm f).sources) ∧
    (translateTitleToEnglish dict (jsOr md.title (jsOr md.source v.id)) =
        jsOr md.title (jsOr md.source v.id) →
      ∀ s ∈ (processMatches dict "en" qm f).sources, s.id ≠ v.id) ∧
    ((∀ w ∈ retainedOf "en" qm f, ∀ mdw, w.metadata = some mdw →
        strContains (jsOr mdw.url "#") "/en/" = false ∧
        translateTitleToEnglish dict (jsOr mdw.title (jsOr mdw.source w.id)) =
          jsOr mdw.title (jsOr mdw.source w.id)) →
      (processMatches dict "en" qm f).sources = []) := by
  have hjs : jsOr (some u) "#" = u := jsOr_some_of_ne u "#" hune
  have hsrcs := processMatches_sources dict "en" qm f
  have huniq := uniqueSources_eq_self (buildSources dict "en" (retainedOf "en" qm f))
    hndurl hnohash
  refine ⟨?_, ?_, ?_⟩
  · intro htr
    rw [hsrcs, huniq]
    have hcand : sourceCandidate v = true := by
      unfold sourceCandidate
      rw [hmd]
      dsimp only
      rw [hurl, truthy_some_of_ne u hune]
      rfl
    have hbuild : buildSource dict "en" v =
        ⟨v.id, convertUrlForLanguage u "en",
          translateTitleToEnglish dict (jsOr md.title (jsOr md.source v.id)),
          jsOr md.source v.id, true⟩ := by
      unfold buildSource
      rw [hmd]
      simp only [Option.getD_some]
      rw [hurl, hjs]
      have hc : (("en" : String) == "en" && !strContains u "/en/") = true := by
        rw [hnoen]
        rfl
      rw [if_pos hc, if_pos (bne_iff_ne.2 htr)]
    have h1 : v ∈ (retainedOf "en" qm f).filter sourceCandidate :=
      List.mem_filter.2 ⟨hv, hcand⟩
    have h2 : buildSource dict "en" v ∈
        ((retainedOf "en" qm f).filter sourceCandidate).map (buildSource dict "en") :=
      List.mem_map_of_mem _ h1
    have h3 : buildSource dict "en" v ∈ buildSources dict "en" (retainedOf "en" qm f) := by
      unfold buildSources
      refine List.mem_filter.2 ⟨h2, ?_⟩
      rw [hbuild]
      rfl
    rw [hbuild] at h3
    exact h3
  · intro htr s hs hsid
    rw [hsrcs, huniq] at hs
    unfold buildSources at hs
    rcases List.mem_filter.1 hs with ⟨hmap, hkeep⟩
    rcases List.mem_map.1 hmap with ⟨w, hwmem, hws⟩
    rcases List.mem_filter.1 hwmem with ⟨hwrs, _⟩
    have hwid : w.id = v.id := by
      rw [← buildSource_id dict "en" w, hws, hsid]
    have hwv : w = v := List.inj_on_of_nodup_map hndid hwrs hv hwid
    subst hwv
    have hbuild2 : buildSource dict "en" w =
        ⟨w.id, u, jsOr md.title (jsOr md.source w.id), jsOr md.source w.id, false⟩ := by
      unfold buildSource
      rw [hmd]
      simp only [Option.getD_some]
      rw [hurl, hjs]
      have hc : (("en" : String) == "en" && !strContains u "/en/") = true := by
        rw [hnoen]
        rfl
      rw [if_pos hc, if_neg (by rw [htr, bne_self_eq_false]; simp)]
    rw [hbuild2] at hws
    rw [← hws] at hkeep
    simp [keepForLanguage] at hkeep
  · intro hall
    rw [hsrcs, huniq]
    unfold buildSources
    refine List.filter_eq_nil_iff.2 ?_
    intro s hsmem
    rcases List.mem_map.1 hsmem with ⟨w, hwmem, hws⟩
    rcases List.mem_filter.1 hwmem with ⟨hwrs, hwcand⟩
    rcases hmdw : w.metadata with _ | mdw
    · unfold sourceCandidate at hwcand
      rw [hmdw] at hwcand
      simp at hwcand
    · obtain ⟨hwnoen, hwtr⟩ := hall w hwrs mdw hmdw
      have hbuildw : buildSource dict "en" w =
          ⟨w.id, jsOr mdw.url "#", jsOr mdw.title (jsOr mdw.source w.id),
            jsOr mdw.source w.id, false⟩ := by
        unfold buildSource
        rw [hmdw]
        simp only [Option.getD_some]
        have hc : (("en" : String) == "en" && !strContains (jsOr mdw.url "#") "/en/") = true := by
          rw [hwnoen]
          rfl
        rw [if_pos hc, if_neg (by rw [hwtr, bne_self_eq_false]; simp)]
      rw [← hws, hbuildw]
      simp [keepForLanguage]

/-- Counterexample to C3 as frozen: with the dictionary entry `"T" ↦ "T"`,
the dictionary does contain a translation for the retained Chinese match's
title, its URL lacks the English marker, yet the returned source list is
empty while the context string is non-empty — so "appears iff the dictionary
contains a translation for its title" fails. -/
theorem c3_counterexample :
    matchCe ∈ retainedOf "en" [matchCe] true ∧
    strContains "https://s.com/blog/t" "/en/" = false ∧
    (dictCe.lookup "T").isSome = true ∧
    (processMatches dictCe "en" [matchCe] true).sources = [] ∧
    (processMatches dictCe "en" [matchCe] true).contexts = "body" :=
  ⟨by decide, by decide, by decide, by decide, by rfl⟩

/-- Witness for the amended C3 at a concrete run with a genuine translation. -/
theorem c3_witness :
    RSource.mk "w1" (convertUrlForLanguage "https://s.com/blog/w" "en")
        (translateTitleToEnglish dictW
          (jsOr (some "标题") (jsOr none "w1")))
        (jsOr none "w1") true
      ∈ (processMatches dictW "en" [matchW] true).sources :=
  (c3_en_translation_gate dictW [matchW] true matchW
      ⟨some "text w", some "标题", some "https://s.com/blog/w", none, some "zh"⟩
      "https://s.com/blog/w"
      (by decide) rfl rfl (by decide) (by decide) (by decide)
      (by decide) (by decide)).1 (by decide)

/-! ### Chunker lemmas (for C8 and C9) -/

theorem dropWhile_idem (p : Char → Bool) (l : List Char) :
    (l.dropWhile p).dropWhile p = l.dropWhile p := by
  induction l with
  | nil => rfl
  | cons c t ih =>
    by_cases h : p c = true
    · simp [List.dropWhile_cons, h, ih]
    · simp [List.dropWhile_cons, h]

theorem dropWhile_append_last (p : Char → Bool) (c : Char) (hc : p c = false)
    (l : List Char) : (l ++ [c]).dropWhile p = l.dropWhile p ++ [c] := by
  induction l with
  | nil => simp [List.dropWhile_cons, hc]
  | cons a t ih =>
    by_cases h : p a = true
    · simp [List.dropWhile_cons, h, ih]
    · simp [List.dropWhile_cons, h]

theorem trimChars_cons_eq (c : Char) (t : List Char) (hc : isWsChar c = false) :
    trimChars (c :: t) = c :: (t.reverse.dropWhile isWsChar).reverse := by
  unfold trimChars
  rw [List.dropWhile_cons, if_neg (by simp [hc])]
  rw [List.reverse_cons, dropWhile_append_last isWsChar c hc]
  simp

theorem trimChars_idem (s : List Char) : trimChars (trimChars s) = trimChars s := by
  rcases hd : s.dropWhile isWsChar with _ | ⟨c, t⟩
  · have hnil : trimChars s = [] := by
      unfold trimChars
      rw [hd]
      rfl
    rw [hnil]
    rfl
  · have hc : isWsChar c = false := by
      have hne : s.dropWhile isWsChar ≠ [] := by rw [hd]; simp
      have h2 := List.head_dropWhile_not isWsChar s hne
      simp only [hd, List.head_cons] at h2
      exact h2
    have hts : trimChars s = c :: (t.reverse.dropWhile isWsChar).reverse := by
      unfold trimChars
      rw [hd, List.reverse_cons, dropWhile_append_last isWsChar c hc, List.reverse_append]
      simp
    rw [hts, trimChars_cons_eq c _ hc, List.reverse_reverse, dropWhile_idem]

theorem trimChars_length_le (s : List Char) : (trimChars s).length ≤ s.length := by
  unfold trimChars
  calc ((s.dropWhile isWsChar).reverse.dropWhile isWsChar).reverse.length
      = ((s.dropWhile isWsChar).reverse.dropWhile isWsChar).length := by
        rw [List.length_reverse]
    _ ≤ (s.dropWhile isWsChar).reverse.length := (List.dropWhile_sublist _).length_le
    _ = (s.dropWhile isWsChar).length := by rw [List.length_reverse]
    _ ≤ s.length := (List.dropWhile_sublist _).length_le

theorem nonWs_nil : nonWs [] = [] := rfl

theorem nonWs_append (a b : List Char) : nonWs (a ++ b) = nonWs a ++ nonWs b := by
  unfold nonWs
  rw [List.filter_append]

theorem nonWs_dropWhile (l : List Char) :
    nonWs (l.dropWhile isWsChar) = nonWs l := by
  induction l with
  | nil => rfl
  | cons c t ih =>
    by_cases h : isWsChar c = true
    · rw [List.dropWhile_cons, if_pos (by simp [h]), ih]
      unfold nonWs
      rw [List.filter_cons, if_neg (by simp [h])]
    · rw [List.dropWhile_cons, if_neg (by simp [h])]

theorem nonWs_reverse (l : List Char) : nonWs l.reverse = (nonWs l).reverse := by
  unfold nonWs
  rw [List.filter_reverse]

theorem nonWs_trimChars (s : List Char) : nonWs (trimChars s) = nonWs s := by
  unfold trimChars
  rw [nonWs_reverse, nonWs_dropWhile, nonWs_reverse, List.reverse_reverse,
    nonWs_dropWhile]

theorem nonWs_of_trim_empty (s : List Char) (h : trimChars s = []) : nonWs s = [] := by
  rw [← nonWs_trimChars, h]
  rfl

theorem pushChunk_join_nonWs (s : List Char) (acc : List (List Char)) :
    nonWs (pushChunk s acc).flatten = nonWs acc.flatten ++ nonWs s := by
  unfold pushChunk
  by_cases h : (trimChars s).isEmpty = true
  · rw [if_pos h]
    rw [nonWs_of_trim_empty s (by simpa using h)]
    simp
  · rw [if_neg h]
    rw [List.flatten_append]
    rw [nonWs_append]
    simp [nonWs_trimChars]

theorem mem_pushChunk (c s : List Char) (acc : List (List Char))
    (h : c ∈ pushChunk s acc) :
    c ∈ acc ∨ (c = trimChars s ∧ c ≠ []) := by
  unfold pushChunk at h
  by_cases he : (trimChars s).isEmpty = true
  · rw [if_pos he] at h
    exact Or.inl h
  · rw [if_neg he] at h
    rcases List.mem_append.1 h with h1 | h1
    · exact Or.inl h1
    · right
      have hc : c = trimChars s := by simpa using h1
      refine ⟨hc, ?_⟩
      rw [hc]
      simpa using he

theorem sentGo_join (s : List Char) : ∀ (revPre cur : List Char),
    (sentGo s revPre cur).flatten = cur.reverse ++ s := by
  induction s with
  | nil =>
    intro revPre cur
    simp [sentGo]
  | cons c rest ih =>
    intro revPre cur
    unfold sentGo
    by_cases h : (!cur.isEmpty && isSplitHere revPre) = true
    · rw [if_pos h]
      rw [List.flatten_cons, ih (c :: revPre) [c]]
      simp
    · rw [if_neg h]
      rw [ih (c :: revPre) (c :: cur)]
      simp

theorem sentSplit_join (s : List Char) : (sentSplit s).flatten = s := by
  unfold sentSplit
  rw [sentGo_join]
  rfl

theorem chunkLoop_join_nonWs (maxLen : Nat) (parts : List (List Char)) :
    ∀ (acc : List (List Char)) (buf : List Char),
    nonWs ((chunkLoop maxLen parts acc buf).1.flatten ++ (chunkLoop maxLen parts acc buf).2) =
      nonWs (acc.flatten ++ (buf ++ parts.flatten)) := by
  induction parts with
  | nil =>
    intro acc buf
    simp [chunkLoop]
  | cons part rest ih =>
    intro acc buf
    unfold chunkLoop
    by_cases h : (buf ++ part).length > maxLen
    · rw [if_pos h]
      rw [ih (pushChunk buf acc) part]
      rw [nonWs_append, pushChunk_join_nonWs]
      simp [nonWs_append, List.append_assoc]
    · rw [if_neg h]
      rw [ih acc (buf ++ part)]
      simp [nonWs_append, List.append_assoc]

theorem chunkSection_join_nonWs (maxLen : Nat) (sec : List Char) :
    nonWs (chunkSection maxLen sec).flatten = nonWs sec := by
  unfold chunkSection
  by_cases h : sec.length ≤ maxLen
  · rw [if_pos h, pushChunk_join_nonWs]
    simp [nonWs_nil]
  · rw [if_neg h]
    have h1 := chunkLoop_join_nonWs maxLen (sentSplit sec) [] []
    rw [pushChunk_join_nonWs]
    rw [show ([] : List (List Char)).flatten ++ ([] ++ (sentSplit sec).flatten) =
        (sentSplit sec).flatten by simp] at h1
    rw [← nonWs_append, h1, sentSplit_join]

theorem chunkFold_join_nonWs (maxLen : Nat) (secs : List (List Char)) :
    ∀ (chunks0 : List (List Char)),
    nonWs ((secs.foldl (fun chunks sec => chunks ++ chunkSection maxLen sec) chunks0).flatten) =
      nonWs chunks0.flatten ++ nonWs secs.flatten := by
  induction secs with
  | nil =>
    intro chunks0
    simp [nonWs_nil]
  | cons sec rest ih =>
    intro chunks0
    rw [List.foldl_cons, ih (chunks0 ++ chunkSection maxLen sec)]
    rw [List.flatten_append, nonWs_append, chunkSection_join_nonWs]
    simp [nonWs_append, List.append_assoc]

theorem pushChunk_good (maxLen : Nat) (parts0 : List (List Char)) (buf : List Char)
    (acc : List (List Char))
    (hbuf : buf = [] ∨ buf.length ≤ maxLen ∨ buf ∈ parts0)
    (hacc : ∀ c ∈ acc, trimChars c = c ∧ c ≠ [] ∧
      (c.length ≤ maxLen ∨ ∃ part ∈ parts0, c = trimChars part)) :
    ∀ c ∈ pushChunk buf acc, trimChars c = c ∧ c ≠ [] ∧
      (c.length ≤ maxLen ∨ ∃ part ∈ parts0, c = trimChars part) := by
  intro c hc
  rcases mem_pushChunk c buf acc hc with h | ⟨hceq, hcne⟩
  · exact hacc c h
  · refine ⟨by rw [hceq, trimChars_idem], hcne, ?_⟩
    rcases hbuf with h1 | h1 | h1
    · exact absurd (by rw [hceq, h1]; rfl) hcne
    · exact Or.inl (by
        rw [hceq]
        exact le_trans (trimChars_length_le buf) h1)
    · exact Or.inr ⟨buf, h1, hceq⟩

theorem chunkLoop_good (maxLen : Nat) (parts0 : List (List Char)) (parts : List (List Char)) :
    ∀ (acc : List (List Char)) (buf : List Char),
    (∀ part ∈ parts, part ∈ parts0) →
    (buf = [] ∨ buf.length ≤ maxLen ∨ buf ∈ parts0) →
    (∀ c ∈ acc, trimChars c = c ∧ c ≠ [] ∧
      (c.length ≤ maxLen ∨ ∃ part ∈ parts0, c = trimChars part)) →
    ∀ c ∈ pushChunk (chunkLoop maxLen parts acc buf).2 (chunkLoop maxLen parts acc buf).1,
      trimChars c = c ∧ c ≠ [] ∧
        (c.length ≤ maxLen ∨ ∃ part ∈ parts0, c = trimChars part) := by
  induction parts with
  | nil =>
    intro acc buf hsub hbuf hacc
    exact pushChunk_good maxLen parts0 buf acc hbuf hacc
  | cons part rest ih =>
    intro acc buf hsub hbuf hacc
    unfold chunkLoop
    by_cases h : (buf ++ part).length > maxLen
    · rw [if_pos h]
      refine ih (pushChunk buf acc) part (fun q hq => hsub q (List.mem_cons_of_mem _ hq))
        (Or.inr (Or.inr (hsub part (List.mem_cons_self _ _)))) ?_
      exact pushChunk_good maxLen parts0 buf acc hbuf hacc
    · rw [if_neg h]
      refine ih acc (buf ++ part) (fun q hq => hsub q (List.mem_cons_of_mem _ hq))
        (Or.inr (Or.inl (by omega))) hacc

theorem chunkSection_good (maxLen : Nat) (sec : List Char) :
    ∀ c ∈ chunkSection maxLen sec, trimChars c = c ∧ c ≠ [] ∧
      (c.length ≤ maxLen ∨ ∃ part ∈ sentSplit sec, c = trimChars part) := by
  intro c hc
  unfold chunkSection at hc
  by_cases h : sec.length ≤ maxLen
  · rw [if_pos h] at hc
    rcases mem_pushChunk c sec [] hc with h1 | ⟨hceq, hcne⟩
    · simp at h1
    · exact ⟨by rw [hceq, trimChars_idem], hcne,
        Or.inl (by rw [hceq]; exact le_trans (trimChars_length_le sec) h)⟩
  · rw [if_neg h] at hc
    exact chunkLoop_good maxLen (sentSplit sec) (sentSplit sec) [] []
      (fun q hq => hq) (Or.inl rfl) (by intro c hc; simp at hc) c hc

theorem chunkText_mem_section (input : List Char) (maxLen : Nat) (c : List Char)
    (hc : c ∈ chunkText input maxLen) :
    ∃ sec ∈ usedSections input, c ∈ chunkSection maxLen sec := by
  unfold chunkText at hc
  suffices h : ∀ (secs : List (List Char)) (chunks0 : List (List Char)),
      c ∈ secs.foldl (fun chunks sec => chunks ++ chunkSection maxLen sec) chunks0 →
      c ∈ chunks0 ∨ ∃ sec ∈ secs, c ∈ chunkSection maxLen sec by
    rcases h (usedSections input) [] hc with h1 | h1
    · simp at h1
    · exact h1
  intro secs
  induction secs with
  | nil =>
    intro chunks0 h0
    exact Or.inl h0
  | cons sec rest ih =>
    intro chunks0 h0
    rw [List.foldl_cons] at h0
    rcases ih (chunks0 ++ chunkSection maxLen sec) h0 with h1 | h1
    · rcases List.mem_append.1 h1 with h2 | h2
      · exact Or.inl h2
      · exact Or.inr ⟨sec, List.mem_cons_self _ _, h2⟩
    · rcases h1 with ⟨s2, hs2, hcs2⟩
      exact Or.inr ⟨s2, List.mem_cons_of_mem _ hs2, hcs2⟩

/-- C8: every emitted chunk is already trimmed and non-empty, and its length
is at most `maxLen` unless it is the trim of one unsplit sentence segment of
one of the sections being chunked. -/
theorem c8_chunk_bounds (input : List Char) (maxLen : Nat) (c : List Char)
    (hc : c ∈ chunkText input maxLen) :
    trimChars c = c ∧ c ≠ [] ∧
      (c.length ≤ maxLen ∨
        ∃ sec ∈ usedSections input, ∃ part ∈ sentSplit sec, c = trimChars part) := by
  rcases chunkText_mem_section input maxLen c hc with ⟨sec, hsec, hcs⟩
  rcases chunkSection_good maxLen sec c hcs with ⟨h1, h2, h3⟩
  refine ⟨h1, h2, ?_⟩
  rcases h3 with h3 | ⟨part, hp, he⟩
  · exact Or.inl h3
  · exact Or.inr ⟨sec, hsec, part, hp, he⟩

/-- Witness for C8 at a concrete chunking run. -/
theorem c8_witness :
    trimChars "ab。".data = "ab。".data ∧ "ab。".data ≠ [] ∧
      ("ab。".data.length ≤ 3 ∨
        ∃ sec ∈ usedSections "ab。cd。ef".data,
          ∃ part ∈ sentSplit sec, "ab。".data = trimChars part) :=
  c8_chunk_bounds "ab。cd。ef".data 3 "ab。".data (by decide)

/-- C9 (amended): ignoring whitespace, the concatenation of the chunks
reproduces exactly the content of the sections the chunker iterates over —
the heading-split pieces (whose matched `#` markers are removed), or the
whole raw input when the split leaves only empty sections. -/
theorem c9_chunk_concat (input : List Char) (maxLen : Nat) :
    nonWs (chunkText input maxLen).flatten = nonWs (usedSections input).flatten := by
  unfold chunkText
  rw [chunkFold_join_nonWs]
  simp [nonWs_nil]

/-- Counterexample to C9 as frozen: a markdown heading marker is
non-whitespace input content, but the heading split removes it, so chunk
concatenation does not reproduce the non-whitespace content of the input. -/
theorem c9_counterexample :
    nonWs (chunkText "# a".data 800).flatten ≠ nonWs "# a".data := by decide

/-- C7 (failing input): evaluating the path resolver at
`zh/blog/index2/index.md` shows the first-occurrence `replace('/index','/')`
splicing the slug itself: the URL becomes `…/blog/2/index` instead of the
documented `base + "/blog/" + slug` (`…/blog/index2`); a slug that does not
begin with `index` resolves as documented. -/
theorem c7_first_replace_slip :
    toUrlFromPath "https://your-site.com".data "zh/blog/index2/index.md".data =
      ("https://your-site.com/blog/2/index".data, PageLang.zh) ∧
    ("https://your-site.com/blog/2/index".data : List Char) ≠
      "https://your-site.com".data ++ "/blog/".data ++ "index2".data ∧
    toUrlFromPath "https://your-site.com".data "zh/blog/some-post/index.md".data =
      ("https://your-site.com".data ++ "/blog/".data ++ "some-post".data, PageLang.zh) ∧
    toUrlFromPath "https://your-site.com".data "en/blog/some-post/index.md".data =
      ("https://your-site.com".data ++ "/".data ++ "en".data ++ "/blog/".data ++
        "some-post".data, PageLang.en) :=
  ⟨by decide, by decide, by decide, by decide⟩

/-! ### Corpus-selection lemmas (for C6) -/

theorem startsWithL_nil (s : List Char) : startsWithL s [] = true := by
  cases s <;> rfl

theorem startsWithL_append (p s : List Char) : startsWithL (p ++ s) p = true := by
  induction p with
  | nil => exact startsWithL_nil s
  | cons c t ih => simp [startsWithL, ih]

theorem containsL_append_mid (a p b : List Char) : containsL (a ++ (p ++ b)) p = true := by
  induction a with
  | nil =>
    unfold containsL
    rw [List.nil_append, startsWithL_append]
    rfl
  | cons c t ih =>
    unfold containsL
    rw [show ((c :: t) ++ (p ++ b) : List Char) = c :: (t ++ (p ++ b)) from rfl]
    cases hs : startsWithL (c :: (t ++ (p ++ b))) p
    · simpa using ih
    · rfl

theorem startsWithL_ne_head (c d : Char) (s p : List Char) (h : (c == d) = false) :
    startsWithL (c :: s) (d :: p) = false := by
  simp [startsWithL, h]

theorem replaceFirst_boundary (slug : List Char) (h : '/' ∉ slug) (pt repl : List Char) :
    replaceFirst (slug ++ '/' :: pt) ('/' :: pt) repl = slug ++ repl := by
  induction slug with
  | nil =>
    unfold replaceFirst
    rw [List.nil_append, if_pos (by simpa using startsWithL_append ('/' :: pt) [])]
    simp
  | cons c t ih =>
    have hc : (c == '/') = false := by
      simp only [beq_eq_false_iff_ne, ne_eq]
      intro hce
      exact h (by rw [hce]; exact List.mem_cons_self _ _)
    unfold replaceFirst
    rw [show ((c :: t) ++ '/' :: pt : List Char) = c :: (t ++ '/' :: pt) from rfl]
    rw [if_neg (by rw [startsWithL_ne_head c '/' _ _ hc]; simp)]
    show c :: replaceFirst (t ++ '/' :: pt) ('/' :: pt) repl = (c :: t) ++ repl
    rw [ih (fun hm => h (List.mem_cons_of_mem _ hm))]
    rfl

theorem startsWithL_zh_iff (lang rest : List Char) (h : '/' ∉ lang) :
    startsWithL (lang ++ '/' :: rest) ('z' :: 'h' :: '/' :: []) = true ↔
      lang = ['z', 'h'] := by
  rcases lang with _ | ⟨a, _ | ⟨b, t⟩⟩
  · rw [show (([] : List Char) ++ '/' :: rest) = '/' :: rest from rfl]
    rw [startsWithL_ne_head '/' 'z' _ _ (by decide)]
    simp
  · rw [show (([a] : List Char) ++ '/' :: rest) = a :: '/' :: rest from rfl]
    constructor
    · intro hs
      exfalso
      simp only [startsWithL, Bool.and_eq_true] at hs
      exact absurd hs.2.1 (by decide)
    · intro he
      exact absurd he (by simp)
  · have ht : startsWithL (t ++ '/' :: rest) ['/'] = true ↔ t = [] := by
      rcases t with _ | ⟨c, t2⟩
      · simp [startsWithL]
      · rw [show ((c :: t2) ++ '/' :: rest : List Char) = c :: (t2 ++ '/' :: rest) from rfl]
        rw [startsWithL_ne_head c '/' _ _ (by
          simp only [beq_eq_false_iff_ne, ne_eq]
          intro hce
          exact h (by rw [← hce]; simp))]
        simp
    rw [show ((a :: b :: t : List Char) ++ '/' :: rest) = a :: b :: (t ++ '/' :: rest) from rfl]
    constructor
    · intro hs
      simp only [startsWithL, Bool.and_eq_true, beq_iff_eq] at hs
      rcases hs with ⟨ha, hb, hs3⟩
      rw [ha, hb, ht.1 hs3]
    · intro he
      have ha : a = 'z' := by injection he
      have hrest : b :: t = ['h'] := by injection he
      have hb : b = 'h' := by injection hrest
      have htl : t = [] := by injection hrest
      rw [ha, hb, htl]
      simp [startsWithL]

theorem assocGet_cons_eq (k1 v1 q : List Char) (rest : List (List Char × List Char))
    (h : k1 = q) : assocGet ((k1, v1) :: rest) q = some v1 := by
  show (if (k1 == q) = true then some v1 else assocGet rest q) = some v1
  rw [if_pos (by simp [h])]

theorem assocGet_cons_ne (k1 v1 q : List Char) (rest : List (List Char × List Char))
    (h : k1 ≠ q) : assocGet ((k1, v1) :: rest) q = assocGet rest q := by
  show (if (k1 == q) = true then some v1 else assocGet rest q) = assocGet rest q
  rw [if_neg (by simp [h])]

theorem assocSet_cons_eq (k1 v1 k v : List Char) (rest : List (List Char × List Char))
    (h : k1 = k) : assocSet ((k1, v1) :: rest) k v = (k, v) :: rest := by
  show (if (k1 == k) = true then (k, v) :: rest else (k1, v1) :: assocSet rest k v) =
    (k, v) :: rest
  rw [if_pos (by simp [h])]

theorem assocSet_cons_ne (k1 v1 k v : List Char) (rest : List (List Char × List Char))
    (h : k1 ≠ k) : assocSet ((k1, v1) :: rest) k v = (k1, v1) :: assocSet rest k v := by
  show (if (k1 == k) = true then (k, v) :: rest else (k1, v1) :: assocSet rest k v) =
    (k1, v1) :: assocSet rest k v
  rw [if_neg (by simp [h])]

theorem assocGet_assocSet (m : List (List Char × List Char)) (k v q : List Char) :
    assocGet (assocSet m k v) q = if q = k then some v else assocGet m q := by
  induction m with
  | nil =>
    by_cases hq : q = k
    · rw [if_pos hq]
      exact assocGet_cons_eq k v q [] hq.symm
    · rw [if_neg hq]
      rw [show assocSet [] k v = [(k, v)] from rfl]
      rw [assocGet_cons_ne k v q [] (fun he => hq he.symm)]
  | cons kv rest ih =>
    rcases kv with ⟨k1, v1⟩
    by_cases h1 : k1 = k
    · rw [assocSet_cons_eq k1 v1 k v rest h1]
      by_cases hq : q = k
      · rw [if_pos hq, assocGet_cons_eq k v q rest hq.symm]
      · rw [if_neg hq, assocGet_cons_ne k v q rest (fun he => hq he.symm)]
        rw [assocGet_cons_ne k1 v1 q rest (fun he => hq (by rw [← he, h1]))]
    · rw [assocSet_cons_ne k1 v1 k v rest h1]
      by_cases hq1 : k1 = q
      · have hqk : q ≠ k := fun he => h1 (by rw [hq1, he])
        rw [if_neg hqk]
        rw [assocGet_cons_eq k1 v1 q (assocSet rest k v) hq1]
        rw [assocGet_cons_eq k1 v1 q rest hq1]
      · rw [assocGet_cons_ne k1 v1 q (assocSet rest k v) hq1, ih]
        by_cases hq : q = k
        · rw [if_pos hq, if_pos hq]
        · rw [if_neg hq, if_neg hq, assocGet_cons_ne k1 v1 q rest hq1]

theorem assocHas_eq_isSome (m : List (List Char × List Char)) (k : List Char) :
    assocHas m k = (assocGet m k).isSome := by
  induction m with
  | nil => rfl
  | cons kv rest ih =>
    rcases kv with ⟨k1, v1⟩
    by_cases h1 : k1 = k
    · rw [assocGet_cons_eq k1 v1 k rest h1]
      show ((k1 == k) || assocHas rest k) = (some v1).isSome
      rw [show (k1 == k) = true from by simp [h1]]
      rfl
    · rw [assocGet_cons_ne k1 v1 k rest h1]
      show ((k1 == k) || assocHas rest k) = (assocGet rest k).isSome
      rw [show (k1 == k) = false from by simp [h1], ← ih]
      rfl

theorem mem_keys_assocSet (m : List (List Char × List Char)) (k v q : List Char)
    (h : q ∈ (assocSet m k v).map Prod.fst) : q = k ∨ q ∈ m.map Prod.fst := by
  induction m with
  | nil =>
    rw [show assocSet [] k v = [(k, v)] from rfl] at h
    exact Or.inl (by simpa using h)
  | cons kv rest ih =>
    rcases kv with ⟨k1, v1⟩
    by_cases h1 : k1 = k
    · rw [assocSet_cons_eq k1 v1 k v rest h1, List.map_cons] at h
      rcases List.mem_cons.1 h with h2 | h2
      · exact Or.inl h2
      · exact Or.inr (by rw [List.map_cons]; exact List.mem_cons_of_mem _ h2)
    · rw [assocSet_cons_ne k1 v1 k v rest h1, List.map_cons] at h
      rcases List.mem_cons.1 h with h2 | h2
      · exact Or.inr (by rw [List.map_cons, h2]; exact List.mem_cons_self _ _)
      · rcases ih h2 with h3 | h3
        · exact Or.inl h3
        · exact Or.inr (by rw [List.map_cons]; exact List.mem_cons_of_mem _ h3)

theorem assocSet_keys_nodup (m : List (List Char × List Char)) (k v : List Char)
    (h : (m.map Prod.fst).Nodup) : ((assocSet m k v).map Prod.fst).Nodup := by
  induction m with
  | nil => simp [assocSet]
  | cons kv rest ih =>
    rcases kv with ⟨k1, v1⟩
    rw [List.map_cons] at h
    rcases List.nodup_cons.1 h with ⟨hk1, hrest⟩
    by_cases h1 : k1 = k
    · rw [assocSet_cons_eq k1 v1 k v rest h1, List.map_cons]
      refine List.nodup_cons.2 ⟨?_, hrest⟩
      rw [← h1]
      exact hk1
    · rw [assocSet_cons_ne k1 v1 k v rest h1, List.map_cons]
      refine List.nodup_cons.2 ⟨?_, ih hrest⟩
      intro hmem
      rcases mem_keys_assocSet rest k v k1 hmem with h2 | h2
      · exact h1 h2
      · exact hk1 h2

theorem isBlogPage_render (lg : PageLang) (slug : List Char) :
    isBlogPage (renderCand (.blog lg slug)) = true := by
  cases lg
  · exact containsL_append_mid "en".data "/blog/".data (slug ++ "/index.md".data)
  · exact containsL_append_mid "zh".data "/blog/".data (slug ++ "/index.md".data)

theorem startsWith_zh_render_blog_zh (slug : List Char) :
    startsWithL (renderCand (.blog .zh slug)) "zh/".data = true :=
  startsWithL_append "zh/".data ("blog/".data ++ (slug ++ "/index.md".data))

theorem startsWith_zh_render_blog_en (slug : List Char) :
    startsWithL (renderCand (.blog .en slug)) "zh/".data = false :=
  startsWithL_ne_head 'e' 'z' _ _ (by decide)

theorem startsWith_en_render_blog_en (slug : List Char) :
    startsWithL (renderCand (.blog .en slug)) "en/".data = true :=
  startsWithL_append "en/".data ("blog/".data ++ (slug ++ "/index.md".data))

theorem postPathOf_render_zh (slug : List Char) (h : '/' ∉ slug) :
    postPathOf (renderCand (.blog .zh slug)) = slug := by
  unfold postPathOf stripLangBlog
  rw [if_pos (show startsWithL (renderCand (.blog .zh slug)) "zh/blog/".data = true from
    startsWithL_append "zh/blog/".data (slug ++ "/index.md".data))]
  rw [show (renderCand (.blog .zh slug)).drop 8 = slug ++ "/index.md".data from by
    show ("zh/blog/".data ++ (slug ++ "/index.md".data)).drop ("zh/blog/".data).length =
      slug ++ "/index.md".data
    exact List.drop_left _ _]
  have hb := replaceFirst_boundary slug h "index.md".data []
  rw [show ("/index.md".data : List Char) = '/' :: "index.md".data from rfl]
  rw [show (slug ++ "/index.md".data : List Char) = slug ++ '/' :: "index.md".data from rfl]
  rw [hb]
  simp

theorem postPathOf_render_en (slug : List Char) (h : '/' ∉ slug) :
    postPathOf (renderCand (.blog .en slug)) = slug := by
  unfold postPathOf stripLangBlog
  rw [show startsWithL (renderCand (.blog .en slug)) "zh/blog/".data = false from
    startsWithL_ne_head 'e' 'z' _ _ (by decide)]
  rw [if_neg (by simp)]
  rw [if_pos (show startsWithL (renderCand (.blog .en slug)) "en/blog/".data = true from
    startsWithL_append "en/blog/".data (slug ++ "/index.md".data))]
  rw [show (renderCand (.blog .en slug)).drop 8 = slug ++ "/index.md".data from by
    show ("en/blog/".data ++ (slug ++ "/index.md".data)).drop ("en/blog/".data).length =
      slug ++ "/index.md".data
    exact List.drop_left _ _]
  have hb := replaceFirst_boundary slug h "index.md".data []
  rw [show ("/index.md".data : List Char) = '/' :: "index.md".data from rfl]
  rw [show (slug ++ "/index.md".data : List Char) = slug ++ '/' :: "index.md".data from rfl]
  rw [hb]
  simp

theorem render_static_cons (lang sect : List Char) :
    renderCand (.staticPage lang sect) = lang ++ '/' :: (sect ++ "/_index.md".data) := by
  show ((lang ++ "/".data) ++ sect) ++ "/_index.md".data = _
  rw [List.append_assoc, List.append_assoc]
  rfl

theorem isStaticPage_render_static (lang sect : List Char)
    (hs : sect = "about".data ∨ sect = "contact".data ∨ sect = "community".data) :
    isStaticPage (renderCand (.staticPage lang sect)) = true := by
  rcases hs with h | h | h <;> subst h <;> unfold isStaticPage
  · rw [show containsL (renderCand (.staticPage lang "about".data)) "/about/".data = true from by
      rw [render_static_cons]
      exact containsL_append_mid lang "/about/".data "_index.md".data]
    rfl
  · rw [show containsL (renderCand (.staticPage lang "contact".data)) "/contact/".data = true from by
      rw [render_static_cons]
      exact containsL_append_mid lang "/contact/".data "_index.md".data]
    simp
  · rw [show containsL (renderCand (.staticPage lang "community".data)) "/community/".data = true from by
      rw [render_static_cons]
      exact containsL_append_mid lang "/community/".data "_index.md".data]
    simp

theorem startsWith_zh_render_static (lang sect : List Char) (h : '/' ∉ lang) :
    startsWithL (renderCand (.staticPage lang sect)) "zh/".data = true ↔
      lang = "zh".data := by
  rw [render_static_cons]
  exact startsWithL_zh_iff lang (sect ++ "/_index.md".data) h

theorem selectStep_blog_zh (st : List (List Char × List Char) × List (List Char))
    (slug : List Char) (h1 : '/' ∉ slug)
    (h2 : isStaticPage (renderCand (.blog .zh slug)) = false) :
    selectStep st (renderCand (.blog .zh slug)) =
      (assocSet st.1 slug (renderCand (.blog .zh slug)), st.2) := by
  unfold selectStep
  rw [h2, if_neg (by simp)]
  rw [isBlogPage_render .zh slug, if_pos rfl]
  dsimp only
  rw [postPathOf_render_zh slug h1]
  rw [startsWith_zh_render_blog_zh slug, if_pos rfl]

theorem selectStep_blog_en_new (st : List (List Char × List Char) × List (List Char))
    (slug : List Char) (h1 : '/' ∉ slug)
    (h2 : isStaticPage (renderCand (.blog .en slug)) = false)
    (h3 : assocHas st.1 (postPathOf (renderCand (.blog .en slug))) = false) :
    selectStep st (renderCand (.blog .en slug)) =
      (assocSet st.1 slug (renderCand (.blog .en slug)), st.2) := by
  unfold selectStep
  rw [h2, if_neg (by simp)]
  rw [isBlogPage_render .en slug, if_pos rfl]
  dsimp only
  rw [startsWith_zh_render_blog_en slug, if_neg (by simp)]
  rw [startsWith_en_render_blog_en slug, h3]
  rw [if_pos (by rfl)]
  rw [postPathOf_render_en slug h1]

theorem selectStep_blog_en_old (st : List (List Char × List Char) × List (List Char))
    (slug : List Char)
    (h2 : isStaticPage (renderCand (.blog .en slug)) = false)
    (h3 : assocHas st.1 (postPathOf (renderCand (.blog .en slug))) = true) :
    selectStep st (renderCand (.blog .en slug)) = st := by
  unfold selectStep
  rw [h2, if_neg (by simp)]
  rw [isBlogPage_render .en slug, if_pos rfl]
  dsimp only
  rw [startsWith_zh_render_blog_en slug, if_neg (by simp)]
  rw [startsWith_en_render_blog_en slug, h3]
  rw [if_neg (by simp)]

theorem selectStep_static_zh (st : List (List Char × List Char) × List (List Char))
    (lang sect : List Char) (h : '/' ∉ lang)
    (hs : sect = "about".data ∨ sect = "contact".data ∨ sect = "community".data)
    (hz : lang = "zh".data) :
    selectStep st (renderCand (.staticPage lang sect)) =
      (st.1, st.2 ++ [renderCand (.staticPage lang sect)]) := by
  unfold selectStep
  rw [isStaticPage_render_static lang sect hs, if_pos rfl]
  rw [if_pos ((startsWith_zh_render_static lang sect h).2 hz)]

theorem selectStep_static_other (st : List (List Char × List Char) × List (List Char))
    (lang sect : List Char) (h : '/' ∉ lang)
    (hs : sect = "about".data ∨ sect = "contact".data ∨ sect = "community".data)
    (hz : lang ≠ "zh".data) :
    selectStep st (renderCand (.staticPage lang sect)) = st := by
  unfold selectStep
  rw [isStaticPage_render_static lang sect hs, if_pos rfl]
  rw [if_neg (fun hm => hz ((startsWith_zh_render_static lang sect h).1 hm))]

theorem zhStaticOf_append (a b : List Cand) :
    zhStaticOf (a ++ b) = zhStaticOf a ++ zhStaticOf b := by
  unfold zhStaticOf
  rw [List.filterMap_append]

theorem mem_app_single_of_ne {d c : Cand} {processed : List Cand} (h : d ≠ c) :
    d ∈ processed ++ [c] ↔ d ∈ processed := by
  rw [List.mem_append]
  constructor
  · rintro (h1 | h1)
    · exact h1
    · exact absurd (by simpa using h1) h
  · exact Or.inl

theorem get_inv_extend (processed : List Cand) (c : Cand) (m : List (List Char × List Char))
    (hget : ∀ q, assocGet m q =
      if Cand.blog .zh q ∈ processed then some (renderCand (.blog .zh q))
      else if Cand.blog .en q ∈ processed then some (renderCand (.blog .en q))
      else none)
    (hc : ∀ q, Cand.blog .zh q ≠ c ∧ Cand.blog .en q ≠ c) :
    ∀ q, assocGet m q =
      if Cand.blog .zh q ∈ processed ++ [c] then some (renderCand (.blog .zh q))
      else if Cand.blog .en q ∈ processed ++ [c] then some (renderCand (.blog .en q))
      else none := by
  intro q
  rw [hget q]
  by_cases hz : Cand.blog .zh q ∈ processed
  · rw [if_pos hz, if_pos (List.mem_append_left _ hz)]
  · rw [if_neg hz, if_neg (fun hm => hz ((mem_app_single_of_ne (hc q).1).1 hm))]
    by_cases he : Cand.blog .en q ∈ processed
    · rw [if_pos he, if_pos (List.mem_append_left _ he)]
    · rw [if_neg he, if_neg (fun hm => he ((mem_app_single_of_ne (hc q).2).1 hm))]

theorem selectFold_inv (cands : List Cand) :
    ∀ (processed : List Cand) (st : List (List Char × List Char) × List (List Char)),
    (∀ c ∈ cands, wfCand c) →
    (st.1.map Prod.fst).Nodup →
    (∀ q, assocGet st.1 q =
      if Cand.blog .zh q ∈ processed then some (renderCand (.blog .zh q))
      else if Cand.blog .en q ∈ processed then some (renderCand (.blog .en q))
      else none) →
    st.2 = zhStaticOf processed →
    ((((cands.map renderCand).foldl selectStep st).1.map Prod.fst).Nodup ∧
      (∀ q, assocGet ((cands.map renderCand).foldl selectStep st).1 q =
        if Cand.blog .zh q ∈ processed ++ cands then some (renderCand (.blog .zh q))
        else if Cand.blog .en q ∈ processed ++ cands then some (renderCand (.blog .en q))
        else none) ∧
      ((cands.map renderCand).foldl selectStep st).2 = zhStaticOf (processed ++ cands)) := by
  induction cands with
  | nil =>
    intro processed st hwf hnd hget hst
    rw [List.map_nil, List.foldl_nil, List.append_nil]
    exact ⟨hnd, hget, hst⟩
  | cons c rest ih =>
    intro processed st hwf hnd hget hst
    rw [List.map_cons, List.foldl_cons]
    have hwfc := hwf c (List.mem_cons_self _ _)
    have hmain : ((selectStep st (renderCand c)).1.map Prod.fst).Nodup ∧
        (∀ q, assocGet (selectStep st (renderCand c)).1 q =
          if Cand.blog .zh q ∈ processed ++ [c] then some (renderCand (.blog .zh q))
          else if Cand.blog .en q ∈ processed ++ [c] then some (renderCand (.blog .en q))
          else none) ∧
        (selectStep st (renderCand c)).2 = zhStaticOf (processed ++ [c]) := by
      rcases c with ⟨lg, slug⟩ | ⟨lang, sect⟩
      · rcases hwfc with ⟨hne, hns, hstz, hste⟩
        cases lg
        · -- English blog candidate
          have hpp := postPathOf_render_en slug hns
          by_cases hhas : assocHas st.1 slug = true
          · rw [selectStep_blog_en_old st slug hste (by rw [hpp]; exact hhas)]
            refine ⟨hnd, ?_, ?_⟩
            · intro q
              rw [hget q]
              by_cases hq : q = slug
              · subst hq
                by_cases hz : Cand.blog .zh q ∈ processed
                · rw [if_pos hz, if_pos (List.mem_append_left _ hz)]
                · have he : Cand.blog .en q ∈ processed := by
                    have h2 := assocHas_eq_isSome st.1 q
                    rw [hhas, hget q, if_neg hz] at h2
                    by_cases he2 : Cand.blog .en q ∈ processed
                    · exact he2
                    · rw [if_neg he2] at h2
                      simp at h2
                  rw [if_neg hz, if_pos he]
                  rw [if_neg (fun hm => by
                    rcases List.mem_append.1 hm with h1 | h1
                    · exact hz h1
                    · simp at h1)]
                  rw [if_pos (List.mem_append_left _ he)]
              · by_cases hz : Cand.blog .zh q ∈ processed
                · rw [if_pos hz, if_pos (List.mem_append_left _ hz)]
                · rw [if_neg hz, if_neg (show
                      ¬Cand.blog .zh q ∈ processed ++ [Cand.blog .en slug] from fun hm => by
                    rcases List.mem_append.1 hm with h1 | h1
                    · exact hz h1
                    · simp at h1)]
                  by_cases he : Cand.blog .en q ∈ processed
                  · rw [if_pos he, if_pos (List.mem_append_left _ he)]
                  · rw [if_neg he, if_neg (show
                        ¬Cand.blog .en q ∈ processed ++ [Cand.blog .en slug] from fun hm => by
                      rcases List.mem_append.1 hm with h1 | h1
                      · exact he h1
                      · exact hq (by simpa using h1))]
            · rw [hst, zhStaticOf_append,
                show zhStaticOf [Cand.blog .en slug] = [] from rfl, List.append_nil]
          · have hhasf : assocHas st.1 slug = false := by
              cases hv : assocHas st.1 slug
              · rfl
              · exact absurd hv hhas
            have hgets : assocGet st.1 slug = none := by
              have h2 := assocHas_eq_isSome st.1 slug
              rw [hhasf] at h2
              cases hg : assocGet st.1 slug
              · rfl
              · rw [hg] at h2
                simp at h2
            have hzs : Cand.blog .zh slug ∉ processed := by
              intro hm
              rw [hget slug, if_pos hm] at hgets
              simp at hgets
            have hes : Cand.blog .en slug ∉ processed := by
              intro hm
              rw [hget slug] at hgets
              by_cases hzm : Cand.blog .zh slug ∈ processed
              · rw [if_pos hzm] at hgets
                simp at hgets
              · rw [if_neg hzm, if_pos hm] at hgets
                simp at hgets
            rw [selectStep_blog_en_new st slug hns hste (by rw [hpp]; exact hhasf)]
            refine ⟨assocSet_keys_nodup st.1 slug _ hnd, ?_, ?_⟩
            · intro q
              dsimp only
              rw [assocGet_assocSet]
              by_cases hq : q = slug
              · subst hq
                rw [if_pos rfl]
                rw [if_neg (fun hm => by
                  rcases List.mem_append.1 hm with h1 | h1
                  · exact hzs h1
                  · simp at h1)]
                rw [if_pos (List.mem_append_right _ (by simp))]
              · rw [if_neg hq, hget q]
                by_cases hz : Cand.blog .zh q ∈ processed
                · rw [if_pos hz, if_pos (List.mem_append_left _ hz)]
                · rw [if_neg hz, if_neg (show
                      ¬Cand.blog .zh q ∈ processed ++ [Cand.blog .en slug] from fun hm => by
                    rcases List.mem_append.1 hm with h1 | h1
                    · exact hz h1
                    · simp at h1)]
                  by_cases he : Cand.blog .en q ∈ processed
                  · rw [if_pos he, if_pos (List.mem_append_left _ he)]
                  · rw [if_neg he, if_neg (show
                        ¬Cand.blog .en q ∈ processed ++ [Cand.blog .en slug] from fun hm => by
                      rcases List.mem_append.1 hm with h1 | h1
                      · exact he h1
                      · exact hq (by simpa using h1))]
            · dsimp only
              rw [hst, zhStaticOf_append,
                show zhStaticOf [Cand.blog .en slug] = [] from rfl, List.append_nil]
        · -- Chinese blog candidate: always set
          rw [selectStep_blog_zh st slug hns hstz]
          refine ⟨assocSet_keys_nodup st.1 slug _ hnd, ?_, ?_⟩
          · intro q
            dsimp only
            rw [assocGet_assocSet]
            by_cases hq : q = slug
            · subst hq
              rw [if_pos rfl, if_pos (List.mem_append_right _ (by simp))]
            · rw [if_neg hq, hget q]
              by_cases hz : Cand.blog .zh q ∈ processed
              · rw [if_pos hz, if_pos (List.mem_append_left _ hz)]
              · rw [if_neg hz, if_neg (show
                    ¬Cand.blog .zh q ∈ processed ++ [Cand.blog .zh slug] from fun hm => by
                  rcases List.mem_append.1 hm with h1 | h1
                  · exact hz h1
                  · exact hq (by simpa using h1))]
                by_cases he : Cand.blog .en q ∈ processed
                · rw [if_pos he, if_pos (List.mem_append_left _ he)]
                · rw [if_neg he, if_neg (show
                      ¬Cand.blog .en q ∈ processed ++ [Cand.blog .zh slug] from fun hm => by
                    rcases List.mem_append.1 hm with h1 | h1
                    · exact he h1
                    · simp at h1)]
          · dsimp only
            rw [hst, zhStaticOf_append,
              show zhStaticOf [Cand.blog .zh slug] = [] from rfl, List.append_nil]
      · rcases hwfc with ⟨hnl, hsect⟩
        by_cases hz : lang = "zh".data
        · rw [selectStep_static_zh st lang sect hnl hsect hz]
          refine ⟨hnd, ?_, ?_⟩
          · dsimp only
            exact get_inv_extend processed _ st.1 hget (fun q => ⟨by simp, by simp⟩)
          · dsimp only
            rw [hst, zhStaticOf_append]
            congr 1
            unfold zhStaticOf
            rw [List.filterMap_cons]
            dsimp only
            rw [if_pos hz]
            rfl
        · rw [selectStep_static_other st lang sect hnl hsect hz]
          refine ⟨hnd, ?_, ?_⟩
          · exact get_inv_extend processed _ st.1 hget (fun q => ⟨by simp, by simp⟩)
          · rw [hst, zhStaticOf_append]
            rw [show zhStaticOf [Cand.staticPage lang sect] = [] from by
              unfold zhStaticOf
              rw [List.filterMap_cons]
              dsimp only
              rw [if_neg hz]
              rfl]
            rw [List.append_nil]
    have hres := ih (processed ++ [c]) (selectStep st (renderCand c))
      (fun d hd => hwf d (List.mem_cons_of_mem _ hd)) hmain.1 hmain.2.1 hmain.2.2
    rw [show processed ++ [c] ++ rest = processed ++ c :: rest from by simp] at hres
    exact hres

/-- C6: For every well-formed candidate set given to the corpus selector, the
blog map keys are distinct, so the output contains at most one file per logical
document key; for a blog key the Chinese-language file is selected whenever a
Chinese candidate is present and the English-language file exactly when an
English candidate is present but no Chinese one; the static part of the output
consists of precisely the Chinese-language static candidates (English and other
variants for about/contact/community are dropped entirely, even when no Chinese
variant exists), and `selectCorpus` returns the map values followed by these
static files. -/
theorem c6_corpus_selection (cands : List Cand) (hwf : ∀ c ∈ cands, wfCand c) :
    (((cands.map renderCand).foldl selectStep ([], [])).1.map Prod.fst).Nodup ∧
    (∀ slug, Cand.blog .zh slug ∈ cands →
      assocGet ((cands.map renderCand).foldl selectStep ([], [])).1 slug =
        some (renderCand (.blog .zh slug))) ∧
    (∀ slug, Cand.blog .en slug ∈ cands → Cand.blog .zh slug ∉ cands →
      assocGet ((cands.map renderCand).foldl selectStep ([], [])).1 slug =
        some (renderCand (.blog .en slug))) ∧
    ((cands.map renderCand).foldl selectStep ([], [])).2 = zhStaticOf cands ∧
    selectCorpus (cands.map renderCand) =
      ((cands.map renderCand).foldl selectStep ([], [])).1.map (fun kv => kv.2) ++
        zhStaticOf cands := by
  have h := selectFold_inv cands [] ([], []) hwf List.nodup_nil
    (fun q => by simp [assocGet]) rfl
  rw [List.nil_append] at h
  refine ⟨h.1, ?_, ?_, h.2.2, ?_⟩
  · intro slug hz
    rw [h.2.1 slug, if_pos hz]
  · intro slug he hz
    rw [h.2.1 slug, if_neg hz, if_pos he]
  · show (List.map (fun kv => kv.2)
        ((cands.map renderCand).foldl selectStep ([], [])).1 ++
        ((cands.map renderCand).foldl selectStep ([], [])).2) = _
    rw [h.2.2]

theorem c6_witness :
    (∀ c ∈ candsW, wfCand c) ∧
    ((((candsW.map renderCand).foldl selectStep ([], [])).1.map Prod.fst).Nodup ∧
    (Cand.blog .zh "post-a".data ∈ candsW ∧
      assocGet ((candsW.map renderCand).foldl selectStep ([], [])).1 "post-a".data =
        some (renderCand (.blog .zh "post-a".data))) ∧
    (Cand.blog .en "post-b".data ∈ candsW ∧ Cand.blog .zh "post-b".data ∉ candsW ∧
      assocGet ((candsW.map renderCand).foldl selectStep ([], [])).1 "post-b".data =
        some (renderCand (.blog .en "post-b".data))) ∧
    ((candsW.map renderCand).foldl selectStep ([], [])).2 = zhStaticOf candsW ∧
    selectCorpus (candsW.map renderCand) =
      ((candsW.map renderCand).foldl selectStep ([], [])).1.map (fun kv => kv.2) ++
        zhStaticOf candsW) := by
  have h := c6_corpus_selection candsW (by decide)
  exact ⟨by decide, h.1, ⟨by decide, h.2.1 _ (by decide)⟩,
    ⟨by decide, by decide, h.2.2.1 _ (by decide) (by decide)⟩, h.2.2.2.1, h.2.2.2.2⟩
end RagChatbot